import Mathlib

/-!
Verification development for the `img_resize` backend: a three-stage
pipeline (SFTP mirror download, image transcode, SFTP publish upload).
The definitions below are shallow embeddings of the Python functions in
`src/backend/sftp_sync.py`, `src/backend/image_compress.py`,
`src/backend/sftp_upload.py` and `src/backend/main.py`.

Modelling conventions:
* file contents are byte lists (`List Nat`), modification times are
  rationals (`Rat`, seconds since the epoch, possibly fractional);
* the local filesystem is an association list from slash-separated
  relative paths to files;
* the cooperative stop flag (`should_stop()` / `stop_check()`) is a
  boolean stream `Nat → Bool` sampled at each call, with a clock in the
  state counting the calls made so far — this captures every possible
  moment at which the shared flag can flip;
* the remote listing, the image codec and upload/delete outcomes are
  inputs (parameters) of the embedded functions, mirroring the narrow
  capability interfaces the code consumes;
* I/O never fails spontaneously in the model except where the code
  handles failure explicitly (codec errors, upload errors, delete
  errors), which are modelled by `Option`/`Bool`-valued parameters.
-/

namespace ImgResize

/-- Python `int()` applied to an `st_mtime` value: truncation toward zero. -/
def pyInt (q : Rat) : Int :=
  if 0 ≤ q then q.floor else -((-q).floor)

/-- Association-list lookup (first binding wins), used for filesystem maps. -/
def alookup {α : Type} : List (String × α) → String → Option α
  | [], _ => none
  | (k', v) :: rest, k => if k' = k then some v else alookup rest k

/-- Remove every binding of `k` from an association list. -/
def aerase {α : Type} : List (String × α) → String → List (String × α)
  | [], _ => []
  | (k', v) :: rest, k => if k' = k then aerase rest k else (k', v) :: aerase rest k

/-- Association-list update: bind `k` to `v`, dropping any previous binding. -/
def ainsert {α : Type} (l : List (String × α)) (k : String) (v : α) : List (String × α) :=
  (k, v) :: aerase l k

/-! ### Mirror stage: `sftp_sync.sync_once` -/
/-- A file in the local mirror tree: raw bytes plus a modification time. -/
structure LocalFile where
  content : List Nat
  mtime : Rat
deriving DecidableEq, Repr

/-- One record of the recursive remote listing (`_list_remote`), carrying the
path relative to `settings.remote_dir` as computed by `Path.relative_to`. -/
structure RemoteEntry where
  rel : String
  isDir : Bool
  size : Nat
  mtime : Rat
  atime : Rat
  content : List Nat
deriving DecidableEq, Repr

/-- The `os.stat` data `_list_local` snapshots per file: `st_size` and `st_mtime`. -/
structure StatRec where
  size : Nat
  mtime : Rat
deriving DecidableEq, Repr

/-- The local filesystem: relative path → file. -/
abbrev LocalFS := List (String × LocalFile)

/-- `_list_local`: snapshot the local tree into an index of stat records. -/
def buildLocalIndex (fs : LocalFS) : List (String × StatRec) :=
  fs.map (fun p => (p.1, ⟨p.2.content.length, p.2.mtime⟩))

/-- Actions `sync_once` performs on files, in order (a ghost trace used to
state "this file was skipped / copied" properties). -/
inductive SyncAction where
  | skip (rel : String)
  | copy (rel : String)
deriving DecidableEq, Repr

/-- State threaded through one `sync_once` cycle.  `clock` counts the calls
made to the `should_stop` callback so far. -/
structure SyncState where
  fs : LocalFS
  localDirs : List String
  copied : Nat
  skipped : Nat
  dirsCreated : Nat
  clock : Nat
  trace : List SyncAction
deriving Repr

/-- Proper ancestors of a relative path, as created by
`target_file.parent.mkdir(parents=True, exist_ok=True)`. -/
def ancestors (p : String) : List String :=
  let parts := p.splitOn "/"
  (List.range (parts.length - 1)).map (fun i => String.intercalate "/" (parts.take (i + 1)))

/-- Add a set of directories to the known local directories (idempotent). -/
def addDirs (dirs : List String) (news : List String) : List String :=
  news.foldl (fun ds d => if ds.contains d then ds else d :: ds) dirs

/-- `chunk_size = 1024 * 1024  # 1MB chunks` -/
def chunkSize : Nat := 1024 * 1024

/-- The chunked-copy `while True` loop of `sync_once`: before each read the
stop flag is polled; a chunk of at most `cs` bytes is read and written until
the source is exhausted or a stop is observed.  Returns the bytes written,
the new clock, and whether the copy was interrupted. -/
def copyChunks (stop : Nat → Bool) (cs : Nat) (src : List Nat) (c : Nat) :
    List Nat × Nat × Bool :=
  if stop c then ([], c + 1, true)
  else
    if h : (src.take cs).isEmpty then ([], c + 1, false)
    else
      let r := copyChunks stop cs (src.drop cs) (c + 1)
      (src.take cs ++ r.1, r.2.1, r.2.2)
termination_by src.length
decreasing_by
  simp only [List.isEmpty_eq_true, List.take_eq_nil_iff, not_or] at h
  have h1 : 0 < cs := Nat.pos_of_ne_zero h.1
  have h2 : 0 < src.length := List.length_pos.mpr h.2
  simp only [List.length_drop]
  omega

/-- The skip condition of `sync_once` (lines 165-173): the local stat exists
and has identical truncated mtime and identical size. -/
def matchesLocal (idx : List (String × StatRec)) (e : RemoteEntry) : Bool :=
  match alookup idx e.rel with
  | some st => pyInt st.mtime == pyInt e.mtime && st.size == e.size
  | none => false

/-- The body of `sync_once`'s per-entry loop (lines 147-209), excluding the
loop-top stop check.  Returns the new state and whether the loop breaks
(which happens only at the pre-copy stop check, line 188). -/
def processEntry (stop : Nat → Bool) (idx : List (String × StatRec))
    (s : SyncState) (e : RemoteEntry) : SyncState × Bool :=
  if e.isDir then
    if s.localDirs.contains e.rel then (s, false)
    else
      ({ s with localDirs := addDirs s.localDirs (ancestors e.rel ++ [e.rel]),
                dirsCreated := s.dirsCreated + 1 }, false)
  else
    let s := { s with localDirs := addDirs s.localDirs (ancestors e.rel) }
    if matchesLocal idx e then
      ({ s with skipped := s.skipped + 1, trace := s.trace ++ [.skip e.rel] }, false)
    else
      if stop s.clock then ({ s with clock := s.clock + 1 }, true)
      else
        let s := { s with clock := s.clock + 1 }
        let r := copyChunks stop chunkSize e.content s.clock
        ({ s with fs := ainsert s.fs e.rel ⟨r.1, e.mtime⟩,
                  clock := r.2.1,
                  copied := s.copied + 1,
                  trace := s.trace ++ [.copy e.rel] }, false)

/-- The `for remote_path, attrs in remote_items` loop of `sync_once`,
including the loop-top stop check (line 143). -/
def syncLoop (stop : Nat → Bool) (idx : List (String × StatRec)) :
    List RemoteEntry → SyncState → SyncState
  | [], s => s
  | e :: rest, s =>
    if stop s.clock then { s with clock := s.clock + 1 }
    else
      let s' := processEntry stop idx { s with clock := s.clock + 1 } e
      if s'.2 then s'.1 else syncLoop stop idx rest s'.1

/-- `sync_once`: one full mirror reconciliation cycle.  The remote listing
`items` and the stop stream are inputs; the local index is snapshotted from
the current local filesystem; the per-cycle counters start at zero. -/
def sync_once (stop : Nat → Bool) (items : List RemoteEntry)
    (fs0 : LocalFS) (dirs0 : List String) (c0 : Nat) : SyncState :=
  syncLoop stop (buildLocalIndex fs0) items
    { fs := fs0, localDirs := dirs0, copied := 0, skipped := 0,
      dirsCreated := 0, clock := c0, trace := [] }

/-! ### Characterization of `sync_once` when the stop flag never fires -/
/-- Number of `should_stop` calls the chunk loop makes for a source of the
given length when never stopped (one call per read, plus the final read
that returns no data). -/
def chunkChecks (src : List Nat) : Nat :=
  (src.length + (chunkSize - 1)) / chunkSize + 1

/-- The effect of one loop iteration of `sync_once` when the stop flag never
fires: directories are created if missing, matching files are skipped,
everything else is copied whole and stamped with the remote mtime. -/
def stepNS (idx : List (String × StatRec)) (s : SyncState) (e : RemoteEntry) : SyncState :=
  if e.isDir then
    if s.localDirs.contains e.rel then s
    else { s with localDirs := addDirs s.localDirs (ancestors e.rel ++ [e.rel]),
                  dirsCreated := s.dirsCreated + 1 }
  else
    let s := { s with localDirs := addDirs s.localDirs (ancestors e.rel) }
    if matchesLocal idx e then
      { s with skipped := s.skipped + 1, trace := s.trace ++ [.skip e.rel] }
    else
      { s with fs := ainsert s.fs e.rel ⟨e.content, e.mtime⟩,
               clock := s.clock + 1 + chunkChecks e.content,
               copied := s.copied + 1,
               trace := s.trace ++ [.copy e.rel] }

/-- `sync_once`'s loop with the stop flag never firing, as a pure fold. -/
def runNS (idx : List (String × StatRec)) : List RemoteEntry → SyncState → SyncState
  | [], s => s
  | e :: rest, s => runNS idx rest (stepNS idx { s with clock := s.clock + 1 } e)

/-- The file actions `sync_once` performs, per remote entry, when never
stopped: skip a matching file, copy any other file. -/
def traceOf (idx : List (String × StatRec)) : List RemoteEntry → List SyncAction
  | [] => []
  | e :: rest =>
      (if e.isDir then []
       else if matchesLocal idx e then [SyncAction.skip e.rel]
       else [SyncAction.copy e.rel]) ++ traceOf idx rest

/-! ### Transcode stage: `image_compress.py`

The codec (`PIL`) is modelled by a parameter `enc : InFile → Option Nat`
giving the compressed output size, `none` meaning `compress_image` raises.
The mtime a freshly written output file receives from the OS is modelled by
a stream `wtime : Nat → Rat` indexed by a write counter.  The directory
walk is modelled as a flat listing of input files with paths relative to
the input root (a single-root walk). -/
/-- `IMAGE_EXTENSIONS` from `image_compress.py`. -/
def IMAGE_EXTENSIONS : List String :=
  [".jpg", ".jpeg", ".png", ".webp", ".bmp", ".tiff", ".tif"]

/-- Split a character list on a separator, like `str.split`. -/
def splitOnChar (sep : Char) : List Char → List (List Char)
  | [] => [[]]
  | c :: rest =>
      let r := splitOnChar sep rest
      if c = sep then [] :: r
      else match r with
        | [] => [[c]]
        | hd :: tl => (c :: hd) :: tl

/-- Index of the last occurrence of `'.'`, like `str.rfind('.')`. -/
def lastDotIdx (cs : List Char) : Option Nat :=
  match cs.reverse.findIdx? (· == '.') with
  | some j => some (cs.length - 1 - j)
  | none => none

/-- `PurePath.suffix`: the extension of the final path component, empty
unless the last dot is neither leading nor trailing in that component. -/
def pySuffix (p : String) : String :=
  let name := (splitOnChar '/' p.toList).getLastD []
  match lastDotIdx name with
  | some i => if 0 < i ∧ i < name.length - 1 then String.mk (name.drop i) else ""
  | none => ""

/-- `str.lower()`, character by character. -/
def toLowerStr (s : String) : String := String.mk (s.toList.map Char.toLower)

/-- `is_image_file`: suffix (lowercased) is a supported image extension. -/
def is_image_file (p : String) : Bool :=
  IMAGE_EXTENSIONS.contains (toLowerStr (pySuffix p))

/-- `Path(p).with_suffix('.jpg')`: drop the computed suffix, append `.jpg`. -/
def withSuffixJpg (p : String) : String :=
  let sfx := pySuffix p
  String.mk (p.toList.take (p.toList.length - sfx.toList.length) ++ ".jpg".toList)

/-- An input file seen by the walk: relative path, byte size, mtime. -/
structure InFile where
  rel : String
  size : Nat
  mtime : Rat
deriving DecidableEq, Repr

/-- The stats dictionary of `compress_images_in_folder`/`watch_and_compress`. -/
structure CompStats where
  total_files : Nat
  compressed_files : Nat
  skipped_files : Nat
  error_files : Nat
  total_saved_bytes : Int
deriving DecidableEq, Repr

def CompStats.zero : CompStats := ⟨0, 0, 0, 0, 0⟩

/-- State of a one-shot `compress_images_in_folder` run.  `outFS` maps
output paths to mtimes; `encoded` is a ghost trace of the inputs passed to
`compress_image`, in order. -/
structure FolderSt where
  outFS : List (String × Rat)
  stats : CompStats
  clock : Nat
  wclock : Nat
  encoded : List String
deriving Repr

/-- The per-file loop of `compress_images_in_folder` (lines 138-168):
no freshness check — every image file is handed to `compress_image`. -/
def compressFolderFiles (enc : InFile → Option Nat) (wtime : Nat → Rat)
    (stop : Nat → Bool) : List InFile → FolderSt → FolderSt
  | [], st => st
  | f :: rest, st =>
    if stop st.clock then { st with clock := st.clock + 1 }
    else if ¬ is_image_file f.rel then
      compressFolderFiles enc wtime stop rest { st with clock := st.clock + 1 }
    else
      match enc f with
      | some csz =>
        compressFolderFiles enc wtime stop rest
          { st with
            clock := st.clock + 1,
            outFS := ainsert st.outFS (withSuffixJpg f.rel) (wtime st.wclock),
            wclock := st.wclock + 1,
            stats := { st.stats with
              total_files := st.stats.total_files + 1,
              compressed_files := st.stats.compressed_files + 1,
              total_saved_bytes :=
                st.stats.total_saved_bytes + ((f.size : Int) - (csz : Int)) },
            encoded := st.encoded ++ [f.rel] }
      | none =>
        compressFolderFiles enc wtime stop rest
          { st with
            clock := st.clock + 1,
            stats := { st.stats with
              total_files := st.stats.total_files + 1,
              error_files := st.stats.error_files + 1 },
            encoded := st.encoded ++ [f.rel] }

/-- `compress_images_in_folder` (one-shot mode), starting from fresh stats;
the input directory is assumed to exist. -/
def compress_images_in_folder (enc : InFile → Option Nat) (wtime : Nat → Rat)
    (stop : Nat → Bool) (files : List InFile) (outFS0 : List (String × Rat))
    (c0 w0 : Nat) : FolderSt :=
  if stop c0 then
    { outFS := outFS0, stats := CompStats.zero, clock := c0 + 1, wclock := w0, encoded := [] }
  else
    compressFolderFiles enc wtime stop files
      { outFS := outFS0, stats := CompStats.zero, clock := c0 + 1, wclock := w0, encoded := [] }

/-- Ghost record of one watch cycle's counters (`cycle_compressed`,
`cycle_skipped`, `cycle_errors`), with `seen` counting image files examined
and `saved` the bytes saved, for specification purposes. -/
structure CycleRec where
  compressed : Nat
  skipped : Nat
  errors : Nat
  seen : Nat
  saved : Int
deriving DecidableEq, Repr

def CycleRec.zero : CycleRec := ⟨0, 0, 0, 0, 0⟩

/-- State threaded through `watch_and_compress`: output tree, accumulated
`total_stats`, stop-check clock, write counter, and ghost traces (`encoded`
inputs and the per-cycle counter records). -/
structure WatchSt where
  outFS : List (String × Rat)
  total : CompStats
  clock : Nat
  wclock : Nat
  encoded : List String
  cycles : List CycleRec
deriving Repr

/-- The freshness check of `watch_and_compress` (lines 262-267): the output
file exists and its mtime is `≥` the input's mtime. -/
def outputFresh (outFS : List (String × Rat)) (f : InFile) : Bool :=
  match alookup outFS (withSuffixJpg f.rel) with
  | some om => f.mtime ≤ om
  | none => false

/-- The per-file loop of one `watch_and_compress` cycle (lines 247-286):
fresh outputs are skipped, stale or missing outputs are re-encoded; the
accumulated totals are updated per file, the cycle counters alongside. -/
def watchCycleFiles (enc : InFile → Option Nat) (wtime : Nat → Rat)
    (stop : Nat → Bool) : List InFile → WatchSt → CycleRec → WatchSt × CycleRec
  | [], st, cyc => (st, cyc)
  | f :: rest, st, cyc =>
    if stop st.clock then ({ st with clock := st.clock + 1 }, cyc)
    else if ¬ is_image_file f.rel then
      watchCycleFiles enc wtime stop rest { st with clock := st.clock + 1 } cyc
    else if outputFresh st.outFS f then
      watchCycleFiles enc wtime stop rest { st with clock := st.clock + 1 }
        { cyc with seen := cyc.seen + 1, skipped := cyc.skipped + 1 }
    else
      match enc f with
      | some csz =>
        watchCycleFiles enc wtime stop rest
          { st with
            clock := st.clock + 1,
            outFS := ainsert st.outFS (withSuffixJpg f.rel) (wtime st.wclock),
            wclock := st.wclock + 1,
            total := { st.total with
              compressed_files := st.total.compressed_files + 1,
              total_saved_bytes :=
                st.total.total_saved_bytes + ((f.size : Int) - (csz : Int)) },
            encoded := st.encoded ++ [f.rel] }
          { cyc with seen := cyc.seen + 1, compressed := cyc.compressed + 1,
                     saved := cyc.saved + ((f.size : Int) - (csz : Int)) }
      | none =>
        watchCycleFiles enc wtime stop rest
          { st with
            clock := st.clock + 1,
            total := { st.total with error_files := st.total.error_files + 1 },
            encoded := st.encoded ++ [f.rel] }
          { cyc with seen := cyc.seen + 1, errors := cyc.errors + 1 }

/-- One iteration body of the watch loop (cycle counters reset, walk with a
leading stop check, then `total_stats['skipped_files'] += cycle_skipped`);
the finished cycle record is appended to the ghost `cycles` list. -/
def watchCycle (enc : InFile → Option Nat) (wtime : Nat → Rat) (stop : Nat → Bool)
    (files : List InFile) (st : WatchSt) : WatchSt :=
  let r :=
    if stop st.clock then ({ st with clock := st.clock + 1 }, CycleRec.zero)
    else watchCycleFiles enc wtime stop files { st with clock := st.clock + 1 } CycleRec.zero
  { r.1 with
    total := { r.1.total with
      skipped_files := r.1.total.skipped_files + r.2.skipped },
    cycles := r.1.cycles ++ [r.2] }

/-- The 0.1-second tick loop of the inter-cycle wait: up to `ticks` stop
checks, stopping early when one fires. -/
def sleepLoop (stop : Nat → Bool) : Nat → Nat → Nat
  | 0, c => c
  | t + 1, c => if stop c then c + 1 else sleepLoop stop t (c + 1)

/-- The inter-cycle wait (lines 294-298): one guard check, then the ticks. -/
def watchSleep (stop : Nat → Bool) (ticks : Nat) (st : WatchSt) : WatchSt :=
  if stop st.clock then { st with clock := st.clock + 1 }
  else { st with clock := sleepLoop stop ticks (st.clock + 1) }

/-- `watch_and_compress`, with the `while not stop` loop unrolled `n` times
(each iteration: the loop-condition check, one cycle, the sleep).  `n`
bounds how many iterations of the trace are examined. -/
def watch_and_compress (enc : InFile → Option Nat) (wtime : Nat → Rat)
    (stop : Nat → Bool) (ticks : Nat) (files : List InFile) :
    Nat → WatchSt → WatchSt
  | 0, st => st
  | n + 1, st =>
    if stop st.clock then { st with clock := st.clock + 1 }
    else
      watch_and_compress enc wtime stop ticks files n
        (watchSleep stop ticks
          (watchCycle enc wtime stop files { st with clock := st.clock + 1 }))

/-- The state `watch_and_compress` starts from: given output tree, zeroed
`total_stats`, empty ghost traces. -/
def watchInit (outFS0 : List (String × Rat)) (c0 w0 : Nat) : WatchSt :=
  { outFS := outFS0, total := CompStats.zero, clock := c0, wclock := w0,
    encoded := [], cycles := [] }

/-- Output-path distinctness of a walk listing: two image files never share
an output path. -/
abbrev DistinctOutputs (files : List InFile) : Prop :=
  List.Pairwise (fun f1 f2 => is_image_file f1.rel = true → is_image_file f2.rel = true →
    withSuffixJpg f1.rel ≠ withSuffixJpg f2.rel) files

/-- What `watch_and_compress` actually accumulates in `total_stats`: the
compressed/skipped/error counters and the saved bytes are the sums of the
per-cycle contributions, while `total_files` is never incremented. -/
def statsInv (st : WatchSt) : Prop :=
  st.total.total_files = 0 ∧
  st.total.compressed_files = (st.cycles.map CycleRec.compressed).sum ∧
  st.total.skipped_files = (st.cycles.map CycleRec.skipped).sum ∧
  st.total.error_files = (st.cycles.map CycleRec.errors).sum ∧
  st.total.total_saved_bytes = (st.cycles.map CycleRec.saved).sum

/-! ### Publish stage: `sftp_upload.py`

Upload and delete outcomes are inputs: `upOk rel` says whether
`upload_file` succeeds for that file, `delOk rel` whether `os.remove`
succeeds.  The local tree is a flat walk listing of files plus the set of
directories under the root. -/
/-- A file in the upload source tree. -/
structure UpFile where
  rel : String
  size : Nat
deriving DecidableEq, Repr

/-- The local directory `upload_folder` reads: files and directories. -/
structure LocalTree where
  files : List UpFile
  dirs : List String
deriving DecidableEq, Repr

/-- The stats dictionary of `upload_folder`. -/
structure UploadStats where
  uploaded_files : Nat
  uploaded_bytes : Nat
  deleted_files : Nat
  error_files : Nat
deriving DecidableEq, Repr

def UploadStats.zero : UploadStats := ⟨0, 0, 0, 0⟩

/-- The per-file upload loop (lines 185-197): a successful upload counts and
is appended to the `uploaded_files` list, a failed one counts as an error. -/
def uploadFilesLoop (upOk : String → Bool) (stop : Nat → Bool) :
    List UpFile → UploadStats → List UpFile → Nat → UploadStats × List UpFile × Nat
  | [], st, acc, c => (st, acc, c)
  | f :: rest, st, acc, c =>
    if stop c then (st, acc, c + 1)
    else if upOk f.rel then
      uploadFilesLoop upOk stop rest
        { st with uploaded_files := st.uploaded_files + 1,
                  uploaded_bytes := st.uploaded_bytes + f.size }
        (acc ++ [f]) (c + 1)
    else
      uploadFilesLoop upOk stop rest
        { st with error_files := st.error_files + 1 } acc (c + 1)

/-- The deletion loop (lines 203-213): only members of the `uploaded_files`
list are removed; a failing `os.remove` is logged and skipped. -/
def deleteLoop (delOk : String → Bool) (stop : Nat → Bool) :
    List UpFile → List UpFile → UploadStats → Nat → List UpFile × UploadStats × Nat
  | [], fsfiles, st, c => (fsfiles, st, c)
  | f :: rest, fsfiles, st, c =>
    if stop c then (fsfiles, st, c + 1)
    else if delOk f.rel then
      deleteLoop delOk stop rest (fsfiles.filter (fun g => g.rel ≠ f.rel))
        { st with deleted_files := st.deleted_files + 1 } (c + 1)
    else
      deleteLoop delOk stop rest fsfiles st (c + 1)

/-- `os.path.dirname` on a slash-separated relative path. -/
def pyDirname (p : String) : String :=
  let parts := splitOnChar '/' p.toList
  if parts.length ≤ 1 then "" else String.mk (List.intercalate ['/'] parts.dropLast)

/-- Path depth used to order the bottom-up directory walk. -/
def pathDepth (p : String) : Nat := (splitOnChar '/' p.toList).length

def insertByDepth (x : String) : List String → List String
  | [] => [x]
  | y :: ys => if pathDepth y ≤ pathDepth x then x :: y :: ys else y :: insertByDepth x ys

/-- Directories sorted deepest first, the order `os.walk(topdown=False)`
visits them. -/
def sortByDepthDesc (l : List String) : List String := l.foldr insertByDepth []

/-- `os.listdir(d)` is non-empty: some file or directory has parent `d`. -/
def dirHasEntry (files : List UpFile) (dirs : List String) (d : String) : Bool :=
  files.any (fun f => pyDirname f.rel == d) || dirs.any (fun d2 => pyDirname d2 == d)

/-- The empty-directory sweep (lines 216-228): bottom-up, each directory
whose listing is empty at that point is removed.  Only directories change —
files are untouched. -/
def removeEmptyDirs (t : LocalTree) : LocalTree :=
  let sweep := (sortByDepthDesc t.dirs).foldl
    (fun ds d => if dirHasEntry t.files ds d then ds else ds.filter (fun x => x ≠ d))
    t.dirs
  { t with dirs := sweep }

/-- `upload_folder`: walk and collect, upload each file, then — only when
`delete_after_upload` is set and something uploaded — delete the uploaded
files and sweep empty directories. -/
def upload_folder (upOk delOk : String → Bool) (stop : Nat → Bool)
    (t : LocalTree) (delete_after_upload : Bool) (c : Nat) :
    UploadStats × LocalTree × Nat :=
  if stop c then (UploadStats.zero, t, c + 1)
  else if t.files.isEmpty then (UploadStats.zero, t, c + 1)
  else
    let r := uploadFilesLoop upOk stop t.files UploadStats.zero [] (c + 1)
    if delete_after_upload && !r.2.1.isEmpty then
      let d := deleteLoop delOk stop r.2.1 t.files r.1 r.2.2
      (d.2.1, removeEmptyDirs { files := d.1, dirs := t.dirs }, d.2.2)
    else
      (r.1, t, r.2.2)

/-- `watch_and_upload` with the `while not stop` loop unrolled `n` times:
waits for files to appear, then runs `upload_folder` and accumulates. -/
def watch_and_upload (upOk delOk : String → Bool) (stop : Nat → Bool) (ticks : Nat)
    (delete_after_upload : Bool) :
    Nat → LocalTree → UploadStats → Nat → LocalTree × UploadStats × Nat
  | 0, t, tot, c => (t, tot, c)
  | n + 1, t, tot, c =>
    if stop c then (t, tot, c + 1)
    else if t.files.isEmpty then
      watch_and_upload upOk delOk stop ticks delete_after_upload n t tot
        (sleepLoop stop ticks (c + 1))
    else
      let r := upload_folder upOk delOk stop t delete_after_upload (c + 1)
      let tot' : UploadStats :=
        { uploaded_files := tot.uploaded_files + r.1.uploaded_files,
          uploaded_bytes := tot.uploaded_bytes + r.1.uploaded_bytes,
          deleted_files := tot.deleted_files + r.1.deleted_files,
          error_files := tot.error_files + r.1.error_files }
      watch_and_upload upOk delOk stop ticks delete_after_upload n r.2.1 tot'
        (if stop r.2.2 then r.2.2 + 1 else sleepLoop stop ticks (r.2.2 + 1))

/-! ### Control surface: `main.py`

Each stage pairs an HTTP trigger endpoint (`run_sync`/`run_compress`/
`run_upload`) with a background worker (`_run_sync`/`_run_compress`/
`_run_upload`); all three share the same structure: the endpoint rejects
with HTTP 409 while the `running` flag is set, otherwise spawns the worker,
which validates its configuration, acquires the stage lock non-blockingly,
and in a `finally` block clears `running`, clears the stop flag and
releases the lock. -/
/-- Per-stage state: the `_running` flag, `_stop_requested` flag and the
`threading.Lock`. -/
structure StageState where
  running : Bool
  stopRequested : Bool
  lockHeld : Bool
deriving DecidableEq, Repr

inductive TriggerResult where
  /-- HTTP 409: the endpoint saw `running == true` and rejected. -/
  | conflict
  /-- HTTP 200 "started" and the worker acquired the lock and began a run. -/
  | started
  /-- HTTP 200 "started" but the worker's non-blocking acquire failed, so it
  logged a skip and did nothing. -/
  | startedNoop
deriving DecidableEq, Repr

/-- A run trigger: the endpoint's `running` check followed by the worker's
`lock.acquire(blocking=False)` prologue, which on success sets `running`
and clears any stale stop request. -/
def triggerRun (s : StageState) : TriggerResult × StageState :=
  if s.running then (.conflict, s)
  else if s.lockHeld then (.startedNoop, s)
  else (.started, { running := true, stopRequested := false, lockHeld := true })

/-- The `finally` epilogue of a worker run: clear `running`, clear
`stopRequested`, release the lock — on every exit path. -/
def finishRun (_ : StageState) : StageState :=
  { running := false, stopRequested := false, lockHeld := false }

/-- The configuration `_run_compress` validates before starting work. -/
structure CompressConfig where
  settingsPresent : Bool
  local_dir : String
  compress_output_dir : String
deriving DecidableEq, Repr

inductive LogLevel where
  | info
  | warn
  | error
deriving DecidableEq, Repr

inductive RunResponse where
  | conflict409
  | started
deriving DecidableEq, Repr

/-- The validation prologue of `_run_compress` (lines 910-931): each failed
check writes one log entry and returns without starting work; on success
the lock is acquired and the run begins. -/
def runCompressPrologue (cfg : CompressConfig) (s : StageState) :
    List (LogLevel × String) × StageState × Bool :=
  if ¬ cfg.settingsPresent then
    ([(.warn, "画像圧縮スキップ: 設定が未構成です")], s, false)
  else if cfg.local_dir = "" then
    ([(.error, "画像圧縮エラー: コピー先フォルダーが未設定です")], s, false)
  else if cfg.compress_output_dir = "" then
    ([(.error, "画像圧縮エラー: 画像圧縮出力先フォルダーが未設定です")], s, false)
  else if s.lockHeld then
    ([(.info, "画像圧縮スキップ: 既に実行中です")], s, false)
  else
    ([], { running := true, stopRequested := false, lockHeld := true }, true)

/-- `run_compress` (`POST /compress/run`): HTTP 409 while `running`,
otherwise log the start request, spawn `_run_compress`, and answer
"started" — the response is fixed before the worker validates anything.
Returns the response, the log entries written, the stage state after the
worker's prologue, and whether work actually started. -/
def run_compress (cfg : CompressConfig) (s : StageState) :
    RunResponse × List (LogLevel × String) × StageState × Bool :=
  if s.running then (.conflict409, [], s, false)
  else
    let r := runCompressPrologue cfg s
    (.started, (.info, "画像圧縮監視開始: ユーザーによる監視開始要求") :: r.1, r.2.1, r.2.2)

/-- The configuration `_run_upload` validates. -/
structure UploadConfig where
  settingsPresent : Bool
  compress_output_dir : String
  remote_output_dir : String
  upload_interval_seconds : Nat
deriving DecidableEq, Repr

/-- `_run_upload` (lines 1003-1065): after validation, the one-shot branch
calls `upload_folder` and the continuous branch `watch_and_upload`, both
with `delete_after_upload := false` as at the two call sites (lines 1040
and 1054).  Returns the final local tree and the stats. -/
def runUploadThread (cfg : UploadConfig) (upOk delOk : String → Bool)
    (stop : Nat → Bool) (ticks n : Nat) (t : LocalTree) : LocalTree × UploadStats :=
  if ¬ cfg.settingsPresent then (t, UploadStats.zero)
  else if cfg.compress_output_dir = "" then (t, UploadStats.zero)
  else if cfg.remote_output_dir = "" then (t, UploadStats.zero)
  else if cfg.upload_interval_seconds = 0 then
    let r := upload_folder upOk delOk stop t false 0
    (r.2.1, r.1)
  else
    let r := watch_and_upload upOk delOk stop ticks false n t UploadStats.zero 0
    (r.1, r.2.1)

/-! ### Theorems -/

theorem alookup_aerase_ne {α : Type} (l : List (String × α)) (k k' : String) (h : k ≠ k') :
    alookup (aerase l k) k' = alookup l k' := by
  induction l with
  | nil => rfl
  | cons hd tl ih =>
    obtain ⟨a, b⟩ := hd
    by_cases hk : a = k
    · subst hk
      have hne : a ≠ k' := h
      simp [aerase, alookup, hne, ih]
    · by_cases h2 : a = k'
      · subst h2; simp [aerase, alookup, hk]
      · simp [aerase, alookup, hk, h2, ih]

theorem alookup_ainsert {α : Type} (l : List (String × α)) (k : String) (v : α) (k' : String) :
    alookup (ainsert l k v) k' = if k = k' then some v else alookup l k' := by
  by_cases h : k = k'
  · simp [ainsert, alookup, h]
  · simp [ainsert, alookup, h, alookup_aerase_ne l k k' h]

theorem copyChunks_false_aux :
    ∀ (n : Nat) (src : List Nat) (c : Nat), src.length ≤ n →
      copyChunks (fun _ => false) chunkSize src c = (src, c + chunkChecks src, false) := by
  intro n
  induction n with
  | zero =>
    intro src c h
    have hsrc : src = [] := List.length_eq_zero.mp (Nat.le_zero.mp h)
    subst hsrc
    rw [copyChunks]
    simp [chunkChecks, chunkSize]
  | succ n ih =>
    intro src c h
    rw [copyChunks]
    simp only [Bool.false_eq_true, if_false]
    by_cases hemp : (src.take chunkSize).isEmpty
    · rw [dif_pos hemp]
      have hsrc : src = [] := by
        simp only [List.isEmpty_eq_true, List.take_eq_nil_iff] at hemp
        rcases hemp with h0 | h0
        · exact absurd h0 (by decide)
        · exact h0
      subst hsrc
      simp [chunkChecks, chunkSize]
    · rw [dif_neg hemp]
      have hne : src ≠ [] := by
        simp only [List.isEmpty_eq_true, List.take_eq_nil_iff, not_or] at hemp
        exact hemp.2
      have hpos : 0 < src.length := List.length_pos.mpr hne
      have hlen : (src.drop chunkSize).length ≤ n := by
        simp only [List.length_drop, chunkSize]
        have hcs : (0 : Nat) < chunkSize := by decide
        simp only [chunkSize] at hcs
        omega
      rw [ih (src.drop chunkSize) (c + 1) hlen]
      have harith : c + 1 + chunkChecks (src.drop chunkSize) = c + chunkChecks src := by
        simp only [chunkChecks, List.length_drop, chunkSize]
        omega
      rw [List.take_append_drop, harith]

theorem copyChunks_false (src : List Nat) (c : Nat) :
    copyChunks (fun _ => false) chunkSize src c = (src, c + chunkChecks src, false) :=
  copyChunks_false_aux src.length src c le_rfl

theorem processEntry_false (idx : List (String × StatRec)) (s : SyncState) (e : RemoteEntry) :
    processEntry (fun _ => false) idx s e = (stepNS idx s e, false) := by
  unfold processEntry stepNS
  by_cases hd : e.isDir
  · simp only [hd, if_true]
    split <;> rfl
  · simp only [hd, if_false, Bool.false_eq_true]
    by_cases hm : matchesLocal idx e
    · simp [hm]
    · simp only [hm, if_false, Bool.false_eq_true]
      rw [copyChunks_false]

theorem syncLoop_false (idx : List (String × StatRec)) :
    ∀ (items : List RemoteEntry) (s : SyncState),
      syncLoop (fun _ => false) idx items s = runNS idx items s := by
  intro items
  induction items with
  | nil => intro s; rfl
  | cons e rest ih =>
    intro s
    simp only [syncLoop, Bool.false_eq_true, if_false, runNS, processEntry_false]
    exact ih _

theorem stepNS_skipped (idx : List (String × StatRec)) (s : SyncState) (e : RemoteEntry) :
    (stepNS idx s e).skipped =
      s.skipped + (if !e.isDir && matchesLocal idx e then 1 else 0) := by
  unfold stepNS
  by_cases hd : e.isDir
  · simp only [hd, if_true, Bool.not_true, Bool.false_and, if_false]
    split <;> rfl
  · by_cases hm : matchesLocal idx e <;> simp [hd, hm]

theorem stepNS_copied (idx : List (String × StatRec)) (s : SyncState) (e : RemoteEntry) :
    (stepNS idx s e).copied =
      s.copied + (if !e.isDir && !matchesLocal idx e then 1 else 0) := by
  unfold stepNS
  by_cases hd : e.isDir
  · simp only [hd, if_true, Bool.not_true, Bool.false_and, if_false]
    split <;> rfl
  · by_cases hm : matchesLocal idx e <;> simp [hd, hm]

theorem stepNS_trace (idx : List (String × StatRec)) (s : SyncState) (e : RemoteEntry) :
    (stepNS idx s e).trace =
      s.trace ++ (if e.isDir then []
                  else if matchesLocal idx e then [SyncAction.skip e.rel]
                  else [SyncAction.copy e.rel]) := by
  unfold stepNS
  by_cases hd : e.isDir
  · simp only [hd, if_true, List.append_nil]
    split <;> rfl
  · by_cases hm : matchesLocal idx e <;> simp [hd, hm]

theorem stepNS_fs (idx : List (String × StatRec)) (s : SyncState) (e : RemoteEntry) :
    (stepNS idx s e).fs =
      if !e.isDir && !matchesLocal idx e
      then ainsert s.fs e.rel ⟨e.content, e.mtime⟩ else s.fs := by
  unfold stepNS
  by_cases hd : e.isDir
  · simp only [hd, if_true, Bool.not_true, Bool.false_and, if_false]
    split <;> rfl
  · by_cases hm : matchesLocal idx e <;> simp [hd, hm]

theorem runNS_skipped (idx : List (String × StatRec)) :
    ∀ (items : List RemoteEntry) (s : SyncState),
      (runNS idx items s).skipped =
        s.skipped + items.countP (fun e => !e.isDir && matchesLocal idx e) := by
  intro items
  induction items with
  | nil => intro s; simp [runNS]
  | cons e rest ih =>
    intro s
    rw [runNS, ih, stepNS_skipped]
    simp only [List.countP_cons]
    have hsk : ({ s with clock := s.clock + 1 } : SyncState).skipped = s.skipped := rfl
    rw [hsk]
    by_cases hp : (!e.isDir && matchesLocal idx e) = true <;> simp [hp] <;> omega

theorem runNS_copied (idx : List (String × StatRec)) :
    ∀ (items : List RemoteEntry) (s : SyncState),
      (runNS idx items s).copied =
        s.copied + items.countP (fun e => !e.isDir && !matchesLocal idx e) := by
  intro items
  induction items with
  | nil => intro s; simp [runNS]
  | cons e rest ih =>
    intro s
    rw [runNS, ih, stepNS_copied]
    simp only [List.countP_cons]
    have hsk : ({ s with clock := s.clock + 1 } : SyncState).copied = s.copied := rfl
    rw [hsk]
    by_cases hp : (!e.isDir && !matchesLocal idx e) = true <;> simp [hp] <;> omega

theorem runNS_trace (idx : List (String × StatRec)) :
    ∀ (items : List RemoteEntry) (s : SyncState),
      (runNS idx items s).trace = s.trace ++ traceOf idx items := by
  intro items
  induction items with
  | nil => intro s; simp [runNS, traceOf]
  | cons e rest ih =>
    intro s
    rw [runNS, ih, stepNS_trace, traceOf]
    have hsk : ({ s with clock := s.clock + 1 } : SyncState).trace = s.trace := rfl
    rw [hsk, List.append_assoc]

theorem traceOf_count_copy (idx : List (String × StatRec)) (r : String) :
    ∀ (items : List RemoteEntry),
      (traceOf idx items).count (SyncAction.copy r) =
        items.countP (fun e => !e.isDir && (e.rel == r) && !matchesLocal idx e) := by
  intro items
  induction items with
  | nil => simp [traceOf]
  | cons e rest ih =>
    rw [traceOf, List.count_append, ih, List.countP_cons]
    by_cases hd : e.isDir
    · simp [hd]
    · by_cases hm : matchesLocal idx e
      · simp [hd, hm, List.count_singleton']
      · by_cases hr : e.rel = r
        · subst hr
          simp [hd, hm, List.count_singleton']
          omega
        · simp [hd, hm, hr, List.count_singleton']

theorem traceOf_count_skip (idx : List (String × StatRec)) (r : String) :
    ∀ (items : List RemoteEntry),
      (traceOf idx items).count (SyncAction.skip r) =
        items.countP (fun e => !e.isDir && (e.rel == r) && matchesLocal idx e) := by
  intro items
  induction items with
  | nil => simp [traceOf]
  | cons e rest ih =>
    rw [traceOf, List.count_append, ih, List.countP_cons]
    by_cases hd : e.isDir
    · simp [hd]
    · by_cases hm : matchesLocal idx e
      · by_cases hr : e.rel = r
        · subst hr
          simp [hd, hm, List.count_singleton']
          omega
        · simp [hd, hm, hr, List.count_singleton']
      · simp [hd, hm, List.count_singleton']

theorem traceOf_mem_copy (idx : List (String × StatRec)) :
    ∀ (items : List RemoteEntry) (e : RemoteEntry), e ∈ items →
      e.isDir = false → matchesLocal idx e = false →
      SyncAction.copy e.rel ∈ traceOf idx items := by
  intro items
  induction items with
  | nil => intro e he; cases he
  | cons f rest ih =>
    intro e he hd hm
    rw [traceOf]
    rcases List.mem_cons.mp he with h | h
    · subst h
      simp [hd, hm]
    · exact List.mem_append_right _ (ih e h hd hm)

theorem runNS_fs_pres (idx : List (String × StatRec)) (r : String) :
    ∀ (items : List RemoteEntry) (s : SyncState),
      (∀ e ∈ items, e.isDir = false → e.rel = r → matchesLocal idx e = true) →
      alookup (runNS idx items s).fs r = alookup s.fs r := by
  intro items
  induction items with
  | nil => intro s _; rfl
  | cons e rest ih =>
    intro s h
    rw [runNS, ih _ (fun x hx => h x (List.mem_cons_of_mem e hx))]
    rw [stepNS_fs]
    by_cases hp : (!e.isDir && !matchesLocal idx e) = true
    · rw [if_pos hp]
      have hd : e.isDir = false := by
        cases h1 : e.isDir
        · rfl
        · rw [h1] at hp; simp at hp
      have hm : matchesLocal idx e = false := by
        cases h2 : matchesLocal idx e
        · rfl
        · rw [h2] at hp; simp at hp
      have hner : e.rel ≠ r := by
        intro hr
        have := h e (List.mem_cons_self e rest) hd hr
        rw [this] at hm; cases hm
      rw [alookup_ainsert]
      simp [hner]
    · rw [if_neg hp]

theorem runNS_fs_write (idx : List (String × StatRec)) (e : RemoteEntry)
    (hd : e.isDir = false) (hm : matchesLocal idx e = false) :
    ∀ (items : List RemoteEntry) (s : SyncState), e ∈ items →
      (∀ x ∈ items, x.isDir = false → x.rel = e.rel → x = e) →
      alookup (runNS idx items s).fs e.rel = some ⟨e.content, e.mtime⟩ := by
  intro items
  induction items with
  | nil => intro s he; cases he
  | cons f rest ih =>
    intro s he huniq
    by_cases hrest : e ∈ rest
    · rw [runNS]
      exact ih _ hrest (fun x hx => huniq x (List.mem_cons_of_mem f hx))
    · have hef : e = f := by
        rcases List.mem_cons.mp he with h | h
        · exact h
        · exact absurd h hrest
      subst hef
      rw [runNS]
      rw [runNS_fs_pres idx e.rel rest _ ?vac]
      case vac =>
        intro x hx hxd hxr
        exfalso
        have : x = e := huniq x (List.mem_cons_of_mem e hx) hxd hxr
        subst this
        exact hrest hx
      rw [stepNS_fs]
      simp only [hd, hm, Bool.not_false, Bool.and_self, if_true]
      rw [alookup_ainsert]
      simp

theorem alookup_buildLocalIndex (fs : LocalFS) (r : String) :
    alookup (buildLocalIndex fs) r =
      Option.map (fun f => (⟨f.content.length, f.mtime⟩ : StatRec)) (alookup fs r) := by
  induction fs with
  | nil => rfl
  | cons p rest ih =>
    obtain ⟨k, v⟩ := p
    by_cases hk : k = r
    · simp [buildLocalIndex, alookup, hk]
    · simp only [buildLocalIndex, List.map_cons, alookup, hk, if_false]
      simpa [buildLocalIndex] using ih

theorem countP_one_unique {α : Type} (p : α → Bool) (l : List α) (e : α)
    (h1 : l.countP p = 1) (he : e ∈ l) (hpe : p e = true) :
    ∀ x ∈ l, p x = true → x = e := by
  intro x hx hpx
  rw [List.countP_eq_length_filter] at h1
  obtain ⟨a, ha⟩ := List.length_eq_one.mp h1
  have h1a : x ∈ [a] := ha ▸ List.mem_filter.mpr ⟨hx, hpx⟩
  have h2a : e ∈ [a] := ha ▸ List.mem_filter.mpr ⟨he, hpe⟩
  simp only [List.mem_singleton] at h1a h2a
  rw [h1a, h2a]

theorem countP_one_strengthen {α : Type} (p m : α → Bool) (l : List α) (e : α)
    (h1 : l.countP p = 1) (he : e ∈ l) (hpe : p e = true) (hme : m e = true) :
    l.countP (fun x => m x && p x) = 1 := by
  rw [List.countP_eq_length_filter] at h1 ⊢
  rw [← List.filter_filter p l]
  have hfp : l.filter p = [e] := by
    obtain ⟨a, ha⟩ := List.length_eq_one.mp h1
    have hea : e ∈ [a] := ha ▸ List.mem_filter.mpr ⟨he, hpe⟩
    simp only [List.mem_singleton] at hea
    rw [ha, hea]
  rw [hfp]
  simp [hme]

/-- **C1.**  In a `sync_once` cycle during which no stop is requested, a
remote file whose local counterpart exists with equal size and equal
truncated (`int()`) mtime is left untouched on disk and is counted as a
skip, the cycle's `skipped` counter being exactly the number of such
matching files; a remote file with any mismatch, or with no local
counterpart, triggers a copy instead. -/
theorem mirror_skip_iff_match
    (items : List RemoteEntry) (fs0 : LocalFS) (dirs0 : List String) (c0 : Nat)
    (e : RemoteEntry) (hmem : e ∈ items) (hfile : e.isDir = false)
    (hone : items.countP (fun x => !x.isDir && (x.rel == e.rel)) = 1) :
    (matchesLocal (buildLocalIndex fs0) e = true →
        alookup (sync_once (fun _ => false) items fs0 dirs0 c0).fs e.rel =
          alookup fs0 e.rel ∧
        (sync_once (fun _ => false) items fs0 dirs0 c0).trace.count
          (SyncAction.skip e.rel) = 1) ∧
    (matchesLocal (buildLocalIndex fs0) e = false →
        (sync_once (fun _ => false) items fs0 dirs0 c0).trace.count
          (SyncAction.copy e.rel) = 1) ∧
    (sync_once (fun _ => false) items fs0 dirs0 c0).skipped =
      items.countP (fun x => !x.isDir && matchesLocal (buildLocalIndex fs0) x) := by
  have hpe : (fun x => !x.isDir && (x.rel == e.rel)) e = true := by simp [hfile]
  unfold sync_once
  rw [syncLoop_false]
  refine ⟨?_, ?_, ?_⟩
  · intro hm
    constructor
    · rw [runNS_fs_pres]
      intro x hx hxd hxr
      have hx_eq : x = e :=
        countP_one_unique _ items e hone hmem hpe x hx (by simp [hxd, hxr])
      rw [hx_eq]; exact hm
    · rw [runNS_trace]
      have htr :
          ({ fs := fs0, localDirs := dirs0, copied := 0, skipped := 0,
             dirsCreated := 0, clock := c0, trace := [] } : SyncState).trace = [] := rfl
      rw [htr, List.nil_append, traceOf_count_skip]
      have h1 := countP_one_strengthen (fun x => !x.isDir && (x.rel == e.rel))
        (matchesLocal (buildLocalIndex fs0)) items e hone hmem hpe hm
      refine Eq.trans (List.countP_congr ?_) h1
      intro a _
      simp only [Bool.and_eq_true]
      tauto
  · intro hm
    rw [runNS_trace]
    have htr :
        ({ fs := fs0, localDirs := dirs0, copied := 0, skipped := 0,
           dirsCreated := 0, clock := c0, trace := [] } : SyncState).trace = [] := rfl
    rw [htr, List.nil_append, traceOf_count_copy]
    have h1 := countP_one_strengthen (fun x => !x.isDir && (x.rel == e.rel))
      (fun x => !matchesLocal (buildLocalIndex fs0) x) items e hone hmem hpe
      (by simp [hm])
    refine Eq.trans (List.countP_congr ?_) h1
    intro a _
    simp only [Bool.and_eq_true, Bool.not_eq_true']
    tauto
  · rw [runNS_skipped]
    simp

/-- **C2.**  In a `sync_once` cycle during which no stop is requested, a
remote file absent locally at the start of the cycle is copied exactly
once, and afterwards the local file holds the remote content and its
modification time equals the remote modification time. -/
theorem mirror_absent_copied_mtime
    (items : List RemoteEntry) (fs0 : LocalFS) (dirs0 : List String) (c0 : Nat)
    (e : RemoteEntry) (hmem : e ∈ items) (hfile : e.isDir = false)
    (habsent : alookup fs0 e.rel = none)
    (hone : items.countP (fun x => !x.isDir && (x.rel == e.rel)) = 1) :
    (sync_once (fun _ => false) items fs0 dirs0 c0).trace.count
      (SyncAction.copy e.rel) = 1 ∧
    alookup (sync_once (fun _ => false) items fs0 dirs0 c0).fs e.rel =
      some ⟨e.content, e.mtime⟩ := by
  have hpe : (fun x => !x.isDir && (x.rel == e.rel)) e = true := by simp [hfile]
  have hm : matchesLocal (buildLocalIndex fs0) e = false := by
    unfold matchesLocal
    rw [alookup_buildLocalIndex, habsent]
    rfl
  constructor
  · exact (mirror_skip_iff_match items fs0 dirs0 c0 e hmem hfile hone).2.1 hm
  · unfold sync_once
    rw [syncLoop_false]
    apply runNS_fs_write _ _ hfile hm _ _ hmem
    intro x hx hxd hxr
    exact countP_one_unique _ items e hone hmem hpe x hx (by simp [hxd, hxr])

/-- **C3.**  Mirror reconciliation is idempotent: running `sync_once` twice
with the same remote listing and no stop request yields `copied = 0` on the
second run (assuming the remote listing is well formed: distinct relative
paths and sizes that agree with the content lengths). -/
theorem mirror_idempotent
    (items : List RemoteEntry) (fs0 : LocalFS) (dirs0 : List String) (c0 c1 : Nat)
    (hdist : ∀ e1 ∈ items, ∀ e2 ∈ items, e1.isDir = false → e2.isDir = false →
      e1.rel = e2.rel → e1 = e2)
    (hwf : ∀ e ∈ items, e.isDir = false → e.size = e.content.length) :
    (sync_once (fun _ => false) items
      (sync_once (fun _ => false) items fs0 dirs0 c0).fs
      (sync_once (fun _ => false) items fs0 dirs0 c0).localDirs c1).copied = 0 := by
  have hkey : ∀ e ∈ items, e.isDir = false →
      matchesLocal (buildLocalIndex (sync_once (fun _ => false) items fs0 dirs0 c0).fs) e
        = true := by
    intro e hmem hfile
    have hlook : ∃ f : LocalFile,
        alookup (sync_once (fun _ => false) items fs0 dirs0 c0).fs e.rel = some f ∧
        f.content.length = e.size ∧ pyInt f.mtime = pyInt e.mtime := by
      by_cases hm : matchesLocal (buildLocalIndex fs0) e = true
      · have hpres :
            alookup (sync_once (fun _ => false) items fs0 dirs0 c0).fs e.rel =
              alookup fs0 e.rel := by
          unfold sync_once
          rw [syncLoop_false]
          apply runNS_fs_pres
          intro x hx hxd hxr
          have : x = e := hdist x hx e hmem hxd hfile hxr
          rw [this]; exact hm
        unfold matchesLocal at hm
        rw [alookup_buildLocalIndex] at hm
        cases hf : alookup fs0 e.rel with
        | none => rw [hf] at hm; cases hm
        | some f =>
          rw [hf] at hm
          simp only [Option.map_some', Bool.and_eq_true, beq_iff_eq] at hm
          exact ⟨f, by rw [hpres, hf], hm.2, hm.1⟩
      · have hm' : matchesLocal (buildLocalIndex fs0) e = false := by
          cases hmm : matchesLocal (buildLocalIndex fs0) e
          · rfl
          · exact absurd hmm hm
        have hwrite :
            alookup (sync_once (fun _ => false) items fs0 dirs0 c0).fs e.rel =
              some ⟨e.content, e.mtime⟩ := by
          unfold sync_once
          rw [syncLoop_false]
          apply runNS_fs_write _ _ hfile hm' _ _ hmem
          intro x hx hxd hxr
          exact hdist x hx e hmem hxd hfile hxr
        exact ⟨⟨e.content, e.mtime⟩, hwrite, (hwf e hmem hfile).symm, rfl⟩
    obtain ⟨f, hf, hlen, hmt⟩ := hlook
    unfold matchesLocal
    rw [alookup_buildLocalIndex, hf]
    simp only [Option.map_some']
    simp [hlen, hmt]
  conv_lhs => rw [sync_once]
  rw [syncLoop_false, runNS_copied]
  have hzero :
      items.countP (fun x => !x.isDir &&
        !matchesLocal (buildLocalIndex
          (sync_once (fun _ => false) items fs0 dirs0 c0).fs) x) = 0 := by
    rw [List.countP_eq_zero]
    intro a ha
    by_cases had : a.isDir
    · simp [had]
    · have : a.isDir = false := by
        cases h2 : a.isDir
        · rfl
        · exact absurd h2 had
      simp [this, hkey a ha this]
  rw [hzero]

theorem copyChunks_stopAt_aux (k : Nat) :
    ∀ (d : Nat) (src : List Nat) (c : Nat), k - c = d → c ≤ k →
      (k - c) * chunkSize < src.length →
      copyChunks (fun n => decide (k ≤ n)) chunkSize src c =
        (src.take ((k - c) * chunkSize), k + 1, true) := by
  intro d
  induction d with
  | zero =>
    intro src c hd hc hlen
    have hck : c = k := by omega
    subst hck
    rw [copyChunks]
    simp [Nat.sub_self]
  | succ n ih =>
    intro src c hd hc hlen
    have hck : c < k := by omega
    rw [copyChunks]
    have hstop : (decide (k ≤ c)) = false := by
      simp only [decide_eq_false_iff_not]
      omega
    simp only [hstop, Bool.false_eq_true, if_false]
    have hlenpos : 0 < src.length := Nat.lt_of_le_of_lt (Nat.zero_le _) hlen
    have hemp : ¬ (src.take chunkSize).isEmpty := by
      simp only [List.isEmpty_eq_true, List.take_eq_nil_iff, not_or]
      exact ⟨by decide, fun h => by rw [h] at hlenpos; simp at hlenpos⟩
    rw [dif_neg hemp]
    have hsplit : (k - c) * chunkSize = (k - (c + 1)) * chunkSize + chunkSize := by
      have h1 : k - c = (k - (c + 1)) + 1 := by omega
      rw [h1, Nat.succ_mul]
    have hlen2 : (k - (c + 1)) * chunkSize < (src.drop chunkSize).length := by
      rw [List.length_drop]
      rw [hsplit] at hlen
      omega
    rw [ih (src.drop chunkSize) (c + 1) (by omega) (by omega) hlen2]
    have htake : src.take chunkSize ++ (src.drop chunkSize).take ((k - (c + 1)) * chunkSize)
        = src.take ((k - c) * chunkSize) := by
      have h1 : (k - c) * chunkSize = chunkSize + (k - (c + 1)) * chunkSize := by
        rw [hsplit]; omega
      rw [h1, List.take_add]
    rw [htake]

theorem copyChunks_stopAt (k : Nat) (src : List Nat) (c : Nat) (hc : c ≤ k)
    (hlen : (k - c) * chunkSize < src.length) :
    copyChunks (fun n => decide (k ≤ n)) chunkSize src c =
      (src.take ((k - c) * chunkSize), k + 1, true) :=
  copyChunks_stopAt_aux k (k - c) src c rfl hc hlen

theorem syncLoop_halt (stop : Nat → Bool) (idx : List (String × StatRec))
    (rest : List RemoteEntry) (s : SyncState) (h : stop s.clock = true) :
    (syncLoop stop idx rest s).fs = s.fs ∧
    (syncLoop stop idx rest s).copied = s.copied ∧
    (syncLoop stop idx rest s).skipped = s.skipped ∧
    (syncLoop stop idx rest s).trace = s.trace := by
  cases rest with
  | nil => exact ⟨rfl, rfl, rfl, rfl⟩
  | cons f r2 => simp [syncLoop, h]

/-- **C9.**  If the stop flag first becomes true while `sync_once` is mid-way
through the chunked copy of a file (here: the stop stream fires from the
`k`-th callback invocation on, with the file's copy still incomplete at that
point), the chunk loop exits early leaving a strictly partial local file,
yet `sync_once` still stamps that file with the remote mtime and counts it
as copied, and then halts the cycle without processing any further item. -/
theorem mirror_stop_mid_copy
    (e1 : RemoteEntry) (rest : List RemoteEntry) (fs0 : LocalFS) (dirs0 : List String)
    (k : Nat) (hk : 2 ≤ k)
    (hfile : e1.isDir = false)
    (hnm : matchesLocal (buildLocalIndex fs0) e1 = false)
    (hpart : (k - 2) * chunkSize < e1.content.length) :
    alookup (sync_once (fun n => decide (k ≤ n)) (e1 :: rest) fs0 dirs0 0).fs e1.rel =
      some ⟨e1.content.take ((k - 2) * chunkSize), e1.mtime⟩ ∧
    (sync_once (fun n => decide (k ≤ n)) (e1 :: rest) fs0 dirs0 0).copied = 1 ∧
    (sync_once (fun n => decide (k ≤ n)) (e1 :: rest) fs0 dirs0 0).trace =
      [SyncAction.copy e1.rel] ∧
    (e1.content.take ((k - 2) * chunkSize)).length < e1.content.length := by
  have h0 : (decide (k ≤ 0)) = false := by
    simp only [decide_eq_false_iff_not]; omega
  have h1 : (decide (k ≤ 1)) = false := by
    simp only [decide_eq_false_iff_not]; omega
  have hkk : (decide (k ≤ k + 1)) = true := by simp
  have hchunks := copyChunks_stopAt k e1.content 2 (by omega) hpart
  have hlast : (e1.content.take ((k - 2) * chunkSize)).length < e1.content.length := by
    rw [List.length_take, Nat.min_eq_left (Nat.le_of_lt hpart)]
    exact hpart
  unfold sync_once
  rw [syncLoop]
  simp only [h0, Bool.false_eq_true, if_false]
  rw [processEntry]
  simp only [hfile, Bool.false_eq_true, if_false, hnm, Nat.zero_add, h1, hchunks]
  cases rest with
  | nil =>
    rw [syncLoop]
    refine ⟨?_, rfl, rfl, hlast⟩
    rw [alookup_ainsert]
    simp
  | cons f r2 =>
    rw [syncLoop]
    simp only [hkk, if_true]
    refine ⟨?_, trivial, by simp, hlast⟩
    rw [alookup_ainsert]
    simp

/-- Witness for **C1** at a concrete input: one remote file whose local
counterpart has equal size and mtime is skipped and left untouched. -/
theorem mirror_skip_iff_match_witness :
    matchesLocal (buildLocalIndex [("a.txt", ⟨[1, 2], (100 : Rat)⟩)])
      ⟨"a.txt", false, 2, 100, 50, [7, 8]⟩ = true ∧
    alookup (sync_once (fun _ => false) [⟨"a.txt", false, 2, 100, 50, [7, 8]⟩]
      [("a.txt", ⟨[1, 2], (100 : Rat)⟩)] [] 0).fs "a.txt" =
      alookup [("a.txt", ⟨[1, 2], (100 : Rat)⟩)] "a.txt" ∧
    (sync_once (fun _ => false) [⟨"a.txt", false, 2, 100, 50, [7, 8]⟩]
      [("a.txt", ⟨[1, 2], (100 : Rat)⟩)] [] 0).skipped = 1 := by
  have h := mirror_skip_iff_match [⟨"a.txt", false, 2, 100, 50, [7, 8]⟩]
    [("a.txt", ⟨[1, 2], (100 : Rat)⟩)] [] 0 ⟨"a.txt", false, 2, 100, 50, [7, 8]⟩
    (by decide) (by decide) (by decide)
  exact ⟨by decide, (h.1 (by decide)).1, h.2.2.trans (by decide)⟩

/-- Witness for **C2** at a concrete input: a remote file absent locally is
copied exactly once and ends up with the remote content and mtime. -/
theorem mirror_absent_copied_mtime_witness :
    (sync_once (fun _ => false) [⟨"b.txt", false, 2, 100, 50, [7, 8]⟩] [] [] 0).trace.count
      (SyncAction.copy "b.txt") = 1 ∧
    alookup (sync_once (fun _ => false) [⟨"b.txt", false, 2, 100, 50, [7, 8]⟩] [] [] 0).fs
      "b.txt" = some ⟨[7, 8], 100⟩ :=
  mirror_absent_copied_mtime [⟨"b.txt", false, 2, 100, 50, [7, 8]⟩] [] [] 0
    ⟨"b.txt", false, 2, 100, 50, [7, 8]⟩ (by decide) (by decide) (by decide) (by decide)

/-- Witness for **C3** at a concrete input: a second `sync_once` over the
same listing copies nothing. -/
theorem mirror_idempotent_witness :
    (sync_once (fun _ => false) [⟨"c.txt", false, 1, 100, 50, [9]⟩]
      (sync_once (fun _ => false) [⟨"c.txt", false, 1, 100, 50, [9]⟩] [] [] 0).fs
      (sync_once (fun _ => false) [⟨"c.txt", false, 1, 100, 50, [9]⟩] [] [] 0).localDirs
      0).copied = 0 :=
  mirror_idempotent [⟨"c.txt", false, 1, 100, 50, [9]⟩] [] [] 0 0 (by decide) (by decide)

/-- Witness for **C9** at a concrete input: the stop flag fires at the first
chunk check (`k = 2`), so the local file is left empty (partial) yet carries
the remote mtime and is counted as copied. -/
theorem mirror_stop_mid_copy_witness :
    alookup (sync_once (fun n => decide (2 ≤ n)) [⟨"d.txt", false, 1, 100, 50, [5]⟩]
      [] [] 0).fs "d.txt" = some ⟨[], 100⟩ ∧
    (sync_once (fun n => decide (2 ≤ n)) [⟨"d.txt", false, 1, 100, 50, [5]⟩]
      [] [] 0).copied = 1 := by
  have h := mirror_stop_mid_copy ⟨"d.txt", false, 1, 100, 50, [5]⟩ [] [] [] 2
    (by decide) (by decide) (by decide) (by decide)
  exact ⟨by simpa using h.1, h.2.1⟩

theorem shift1 {A B S c : Nat} (h : A + (c + 1) = (S + 1) + B) : A + c = S + B := by omega

theorem shiftD {A B S c D : Int} (h : A + (c + D) = (S + D) + B) : A + c = S + B := by omega

theorem watchCycleFiles_totals (enc : InFile → Option Nat) (wtime : Nat → Rat)
    (stop : Nat → Bool) :
    ∀ (files : List InFile) (st : WatchSt) (cyc : CycleRec),
      (watchCycleFiles enc wtime stop files st cyc).1.total.total_files
        = st.total.total_files ∧
      (watchCycleFiles enc wtime stop files st cyc).1.total.skipped_files
        = st.total.skipped_files ∧
      (watchCycleFiles enc wtime stop files st cyc).1.total.compressed_files + cyc.compressed
        = st.total.compressed_files + (watchCycleFiles enc wtime stop files st cyc).2.compressed ∧
      (watchCycleFiles enc wtime stop files st cyc).1.total.error_files + cyc.errors
        = st.total.error_files + (watchCycleFiles enc wtime stop files st cyc).2.errors ∧
      (watchCycleFiles enc wtime stop files st cyc).1.total.total_saved_bytes + cyc.saved
        = st.total.total_saved_bytes + (watchCycleFiles enc wtime stop files st cyc).2.saved ∧
      (watchCycleFiles enc wtime stop files st cyc).1.cycles = st.cycles := by
  intro files
  induction files with
  | nil => intro st cyc; exact ⟨rfl, rfl, rfl, rfl, rfl, rfl⟩
  | cons f rest ih =>
    intro st cyc
    cases hs : stop st.clock with
    | true =>
      simp only [watchCycleFiles, hs, if_true]
      exact ⟨trivial, trivial, trivial, trivial, trivial, trivial⟩
    | false =>
      cases him : is_image_file f.rel with
      | false =>
        simp only [watchCycleFiles, hs, him, Bool.false_eq_true, if_false,
          Bool.not_false, if_true]
        exact ih _ _
      | true =>
        cases hf : outputFresh st.outFS f with
        | true =>
          simp only [watchCycleFiles, hs, him, hf, Bool.false_eq_true, if_false,
            Bool.not_true, if_true]
          exact ih _ _
        | false =>
          cases henc : enc f with
          | some csz =>
            simp only [watchCycleFiles, hs, him, hf, henc, Bool.false_eq_true, if_false,
              Bool.not_true, if_true]
            exact ⟨(ih _ _).1, (ih _ _).2.1, shift1 (ih _ _).2.2.1, (ih _ _).2.2.2.1,
              shiftD (ih _ _).2.2.2.2.1, (ih _ _).2.2.2.2.2⟩
          | none =>
            simp only [watchCycleFiles, hs, him, hf, henc, Bool.false_eq_true, if_false,
              Bool.not_true, if_true]
            exact ⟨(ih _ _).1, (ih _ _).2.1, (ih _ _).2.2.1, shift1 (ih _ _).2.2.2.1,
              (ih _ _).2.2.2.2.1, (ih _ _).2.2.2.2.2⟩

theorem watchSleep_obs (stop : Nat → Bool) (ticks : Nat) (st : WatchSt) :
    (watchSleep stop ticks st).outFS = st.outFS ∧
    (watchSleep stop ticks st).total = st.total ∧
    (watchSleep stop ticks st).encoded = st.encoded ∧
    (watchSleep stop ticks st).cycles = st.cycles ∧
    (watchSleep stop ticks st).wclock = st.wclock := by
  unfold watchSleep
  split <;> exact ⟨rfl, rfl, rfl, rfl, rfl⟩

theorem outputFresh_ainsert_ne (fs : List (String × Rat)) (k : String) (v : Rat)
    (x : InFile) (h : withSuffixJpg x.rel ≠ k) :
    outputFresh (ainsert fs k v) x = outputFresh fs x := by
  unfold outputFresh
  rw [alookup_ainsert]
  rw [if_neg (fun hh => h hh.symm)]

theorem watchCycleFiles_false_chars (enc : InFile → Option Nat) (wtime : Nat → Rat)
    (FS0 : List (String × Rat)) :
    ∀ (files : List InFile) (st : WatchSt) (cyc : CycleRec),
      (∀ f ∈ files, is_image_file f.rel = true →
        outputFresh st.outFS f = outputFresh FS0 f) →
      DistinctOutputs files →
      (watchCycleFiles enc wtime (fun _ => false) files st cyc).1.encoded =
        st.encoded ++ (files.filter
          (fun f => is_image_file f.rel && !outputFresh FS0 f)).map InFile.rel ∧
      (watchCycleFiles enc wtime (fun _ => false) files st cyc).2.skipped =
        cyc.skipped + files.countP (fun f => is_image_file f.rel && outputFresh FS0 f) := by
  intro files
  induction files with
  | nil =>
    intro st cyc _ _
    exact ⟨by simp [watchCycleFiles], by simp [watchCycleFiles]⟩
  | cons f rest ih =>
    intro st cyc hagree hpair
    obtain ⟨hhead, htail⟩ := List.pairwise_cons.mp hpair
    have hagf := hagree f (List.mem_cons_self f rest)
    have hagrest : ∀ x ∈ rest, is_image_file x.rel = true →
        outputFresh st.outFS x = outputFresh FS0 x :=
      fun x hx hxim => hagree x (List.mem_cons_of_mem f hx) hxim
    cases him : is_image_file f.rel with
    | false =>
      simp only [watchCycleFiles, Bool.false_eq_true, if_false, him, Bool.not_false,
        if_true]
      have hrec := ih { st with clock := st.clock + 1 } cyc hagrest htail
      refine ⟨hrec.1.trans ?_, hrec.2.trans ?_⟩
      · simp [List.filter_cons, him]
      · simp [List.countP_cons, him]
    | true =>
      have hFS0 : outputFresh FS0 f = outputFresh st.outFS f := (hagf him).symm
      cases hf : outputFresh st.outFS f with
      | true =>
        simp only [watchCycleFiles, him, hf, Bool.false_eq_true, if_false,
          Bool.not_true, if_true]
        have hrec := ih { st with clock := st.clock + 1 }
          { cyc with seen := cyc.seen + 1, skipped := cyc.skipped + 1 } hagrest htail
        refine ⟨hrec.1.trans ?_, hrec.2.trans ?_⟩
        · simp [List.filter_cons, him, hFS0, hf]
        · simp only [List.countP_cons, him, hFS0, hf]
          simp
          omega
      | false =>
        cases henc : enc f with
        | some csz =>
          simp only [watchCycleFiles, him, hf, henc, Bool.false_eq_true, if_false,
            Bool.not_true, if_true]
          have hagrest2 : ∀ x ∈ rest, is_image_file x.rel = true →
              outputFresh (ainsert st.outFS (withSuffixJpg f.rel) (wtime st.wclock)) x =
                outputFresh FS0 x := by
            intro x hx hxim
            rw [outputFresh_ainsert_ne _ _ _ _ (Ne.symm (hhead x hx him hxim))]
            exact hagrest x hx hxim
          have hrec := ih
            { st with
              clock := st.clock + 1,
              outFS := ainsert st.outFS (withSuffixJpg f.rel) (wtime st.wclock),
              wclock := st.wclock + 1,
              total := { st.total with
                compressed_files := st.total.compressed_files + 1,
                total_saved_bytes :=
                  st.total.total_saved_bytes + ((f.size : Int) - (csz : Int)) },
              encoded := st.encoded ++ [f.rel] }
            { cyc with seen := cyc.seen + 1, compressed := cyc.compressed + 1,
                       saved := cyc.saved + ((f.size : Int) - (csz : Int)) }
            hagrest2 htail
          refine ⟨hrec.1.trans ?_, hrec.2.trans ?_⟩
          · simp [List.filter_cons, him, hFS0, hf]
          · simp [List.countP_cons, him, hFS0, hf]
        | none =>
          simp only [watchCycleFiles, him, hf, henc, Bool.false_eq_true, if_false,
            Bool.not_true, if_true]
          have hrec := ih
            { st with
              clock := st.clock + 1,
              total := { st.total with error_files := st.total.error_files + 1 },
              encoded := st.encoded ++ [f.rel] }
            { cyc with seen := cyc.seen + 1, errors := cyc.errors + 1 }
            hagrest htail
          refine ⟨hrec.1.trans ?_, hrec.2.trans ?_⟩
          · simp [List.filter_cons, him, hFS0, hf]
          · simp [List.countP_cons, him, hFS0, hf]

theorem compressFolderFiles_false_encoded (enc : InFile → Option Nat)
    (wtime : Nat → Rat) :
    ∀ (files : List InFile) (st : FolderSt),
      (compressFolderFiles enc wtime (fun _ => false) files st).encoded =
        st.encoded ++ (files.filter (fun f => is_image_file f.rel)).map InFile.rel := by
  intro files
  induction files with
  | nil => intro st; simp [compressFolderFiles]
  | cons f rest ih =>
    intro st
    cases him : is_image_file f.rel with
    | false =>
      simp only [compressFolderFiles, him, Bool.false_eq_true, not_false_eq_true,
        eq_self_iff_true, not_true, if_true, if_false]
      rw [ih]
      simp [List.filter_cons, him]
    | true =>
      cases henc : enc f with
      | some csz =>
        simp only [compressFolderFiles, him, henc, Bool.false_eq_true,
          not_false_eq_true, eq_self_iff_true, not_true, if_true, if_false]
        rw [ih]
        simp [List.filter_cons, him]
      | none =>
        simp only [compressFolderFiles, him, henc, Bool.false_eq_true,
          not_false_eq_true, eq_self_iff_true, not_true, if_true, if_false]
        rw [ih]
        simp [List.filter_cons, him]

/-- **C4.**  In continuous mode (`watch_and_compress`, here one cycle of the
watch loop), the image files handed to `compress_image` are exactly those
whose output is missing or stale — a matching image file whose output
exists with mtime `≥` the input's mtime is never re-encoded and is counted
as skipped; in one-shot mode (`compress_images_in_folder`) every matching
image file is re-encoded unconditionally, with no freshness check. -/
theorem transcode_freshness_modes
    (enc : InFile → Option Nat) (wtime : Nat → Rat) (ticks : Nat)
    (files : List InFile) (outFS0 : List (String × Rat)) (c0 w0 c1 w1 : Nat)
    (hpair : DistinctOutputs files) :
    (watch_and_compress enc wtime (fun _ => false) ticks files 1
        (watchInit outFS0 c0 w0)).encoded =
      (files.filter
        (fun f => is_image_file f.rel && !outputFresh outFS0 f)).map InFile.rel ∧
    (watch_and_compress enc wtime (fun _ => false) ticks files 1
        (watchInit outFS0 c0 w0)).total.skipped_files =
      files.countP (fun f => is_image_file f.rel && outputFresh outFS0 f) ∧
    (∀ f ∈ files, is_image_file f.rel = true → outputFresh outFS0 f = true →
      f.rel ∉ (watch_and_compress enc wtime (fun _ => false) ticks files 1
        (watchInit outFS0 c0 w0)).encoded) ∧
    (compress_images_in_folder enc wtime (fun _ => false) files outFS0 c1 w1).encoded =
      (files.filter (fun f => is_image_file f.rel)).map InFile.rel := by
  have hchars := watchCycleFiles_false_chars enc wtime outFS0 files
    { outFS := outFS0, total := CompStats.zero, clock := c0 + 1 + 1, wclock := w0,
      encoded := [], cycles := [] } CycleRec.zero (fun _ _ _ => rfl) hpair
  have hL1 := watchCycleFiles_totals enc wtime (fun _ => false) files
    { outFS := outFS0, total := CompStats.zero, clock := c0 + 1 + 1, wclock := w0,
      encoded := [], cycles := [] } CycleRec.zero
  have henc : (watch_and_compress enc wtime (fun _ => false) ticks files 1
      (watchInit outFS0 c0 w0)).encoded =
      (files.filter
        (fun f => is_image_file f.rel && !outputFresh outFS0 f)).map InFile.rel := by
    simp only [watch_and_compress, watchInit, Bool.false_eq_true, if_false,
      watchCycle, watchSleep]
    simpa using hchars.1
  refine ⟨henc, ?_, ?_, ?_⟩
  · simp only [watch_and_compress, watchInit, Bool.false_eq_true, if_false,
      watchCycle, watchSleep]
    rw [hL1.2.1, hchars.2]
    simp [CompStats.zero, CycleRec.zero]
  · intro f hf him hfr hmem
    rw [henc] at hmem
    obtain ⟨g, hgf, hgrel⟩ := List.mem_map.mp hmem
    have hg := List.mem_filter.mp hgf
    have hgprops : is_image_file g.rel = true ∧ outputFresh outFS0 g = false := by
      have := hg.2
      simp only [Bool.and_eq_true, Bool.not_eq_true'] at this
      exact this
    by_cases hfg : g = f
    · subst hfg
      rw [hgprops.2] at hfr
      cases hfr
    · have hsymm : Symmetric (fun f1 f2 : InFile => is_image_file f1.rel = true →
          is_image_file f2.rel = true → withSuffixJpg f1.rel ≠ withSuffixJpg f2.rel) :=
        fun a b hab hb ha => (hab ha hb).symm
      have hR := List.Pairwise.forall hsymm hpair hg.1 hf hfg
      exact hR hgprops.1 him (by rw [hgrel])
  · simp only [compress_images_in_folder, Bool.false_eq_true, if_false]
    simpa using compressFolderFiles_false_encoded enc wtime files
      { outFS := outFS0, stats := CompStats.zero, clock := c1 + 1, wclock := w1,
        encoded := [] }

/-- Witness for **C4** at a concrete input: `p.png` has a fresh output
(`p.jpg`, mtime 7 ≥ 5) and is skipped by the watch cycle; `q.png` has a
stale output (3 < 9) and is re-encoded; the one-shot run re-encodes both. -/
theorem transcode_freshness_modes_witness :
    (watch_and_compress (fun _ => some 40) (fun _ => 11) (fun _ => false) 0
        [⟨"p.png", 100, 5⟩, ⟨"q.png", 100, 9⟩]
        1 (watchInit [("p.jpg", 7), ("q.jpg", 3)] 0 0)).encoded = ["q.png"] ∧
    (watch_and_compress (fun _ => some 40) (fun _ => 11) (fun _ => false) 0
        [⟨"p.png", 100, 5⟩, ⟨"q.png", 100, 9⟩]
        1 (watchInit [("p.jpg", 7), ("q.jpg", 3)] 0 0)).total.skipped_files = 1 ∧
    (compress_images_in_folder (fun _ => some 40) (fun _ => 11) (fun _ => false)
        [⟨"p.png", 100, 5⟩, ⟨"q.png", 100, 9⟩]
        [("p.jpg", 7), ("q.jpg", 3)] 0 0).encoded = ["p.png", "q.png"] := by
  have h := transcode_freshness_modes (fun _ => some 40) (fun _ => 11) 0
    [⟨"p.png", 100, 5⟩, ⟨"q.png", 100, 9⟩] [("p.jpg", 7), ("q.jpg", 3)] 0 0 0 0
    (by decide)
  exact ⟨h.1.trans (by decide), h.2.1.trans (by decide), h.2.2.2.trans (by decide)⟩

theorem watchCycle_statsInv (enc : InFile → Option Nat) (wtime : Nat → Rat)
    (stop : Nat → Bool) (files : List InFile) (st : WatchSt) (h : statsInv st) :
    statsInv (watchCycle enc wtime stop files st) := by
  obtain ⟨h1, h2, h3, h4, h5⟩ := h
  unfold watchCycle
  cases hs : stop st.clock with
  | true =>
    simp only [hs, if_true]
    refine ⟨h1, ?_, ?_, ?_, ?_⟩ <;>
      simp [h2, h3, h4, h5, CycleRec.zero]
  | false =>
    simp only [hs, Bool.false_eq_true, if_false]
    have hL := watchCycleFiles_totals enc wtime stop files
      { st with clock := st.clock + 1 } CycleRec.zero
    obtain ⟨g1, g2, g3, g4, g5, g6⟩ := hL
    have hz1 : CycleRec.zero.compressed = 0 := rfl
    have hz2 : CycleRec.zero.errors = 0 := rfl
    have hz3 : CycleRec.zero.saved = 0 := rfl
    rw [hz1, Nat.add_zero] at g3
    rw [hz2, Nat.add_zero] at g4
    rw [hz3, Int.add_zero] at g5
    have hg2 : (watchCycleFiles enc wtime stop files
        { st with clock := st.clock + 1 } CycleRec.zero).1.total.skipped_files
        = st.total.skipped_files := g2
    have hg3 : (watchCycleFiles enc wtime stop files
        { st with clock := st.clock + 1 } CycleRec.zero).1.total.compressed_files
        = st.total.compressed_files + (watchCycleFiles enc wtime stop files
          { st with clock := st.clock + 1 } CycleRec.zero).2.compressed := g3
    have hg4 : (watchCycleFiles enc wtime stop files
        { st with clock := st.clock + 1 } CycleRec.zero).1.total.error_files
        = st.total.error_files + (watchCycleFiles enc wtime stop files
          { st with clock := st.clock + 1 } CycleRec.zero).2.errors := g4
    have hg5 : (watchCycleFiles enc wtime stop files
        { st with clock := st.clock + 1 } CycleRec.zero).1.total.total_saved_bytes
        = st.total.total_saved_bytes + (watchCycleFiles enc wtime stop files
          { st with clock := st.clock + 1 } CycleRec.zero).2.saved := g5
    refine ⟨?_, ?_, ?_, ?_, ?_⟩
    · simpa using g1.trans h1
    · simp only [g6, List.map_append, List.sum_append, List.map_cons, List.map_nil,
        List.sum_cons, List.sum_nil]
      simp only [hg3, h2]
      omega
    · simp only [g6, List.map_append, List.sum_append, List.map_cons, List.map_nil,
        List.sum_cons, List.sum_nil]
      simp only [hg2, h3]
      omega
    · simp only [g6, List.map_append, List.sum_append, List.map_cons, List.map_nil,
        List.sum_cons, List.sum_nil]
      simp only [hg4, h4]
      omega
    · simp only [g6, List.map_append, List.sum_append, List.map_cons, List.map_nil,
        List.sum_cons, List.sum_nil]
      simp only [hg5, h5]
      omega

theorem watchSleep_statsInv (stop : Nat → Bool) (ticks : Nat) (st : WatchSt)
    (h : statsInv st) : statsInv (watchSleep stop ticks st) := by
  have hobs := watchSleep_obs stop ticks st
  unfold statsInv at *
  rw [hobs.2.1, hobs.2.2.2.1]
  exact h

theorem watch_statsInv (enc : InFile → Option Nat) (wtime : Nat → Rat)
    (stop : Nat → Bool) (ticks : Nat) (files : List InFile) :
    ∀ (n : Nat) (st : WatchSt), statsInv st →
      statsInv (watch_and_compress enc wtime stop ticks files n st) := by
  intro n
  induction n with
  | zero => intro st h; exact h
  | succ n ih =>
    intro st h
    rw [watch_and_compress]
    by_cases hs : stop st.clock = true
    · rw [if_pos hs]; exact h
    · rw [if_neg hs]
      exact ih _ (watchSleep_statsInv _ _ _ (watchCycle_statsInv _ _ _ _ _ h))

/-- **C6** (amended).  In continuous mode the transcode stage accumulates
`compressed_files`, `skipped_files`, `error_files` and `total_saved_bytes`
across cycles — after any number of loop iterations the running totals equal
the sums of the per-cycle contributions — but `total_files` is never
incremented in `watch_and_compress`: the returned `total_files` is `0`
however many files the cycles examined. -/
theorem transcode_watch_totals_accumulate (enc : InFile → Option Nat)
    (wtime : Nat → Rat) (stop : Nat → Bool) (ticks : Nat) (files : List InFile)
    (outFS0 : List (String × Rat)) (c0 w0 n : Nat) :
    statsInv (watch_and_compress enc wtime stop ticks files n (watchInit outFS0 c0 w0)) :=
  watch_statsInv enc wtime stop ticks files n _ ⟨rfl, rfl, rfl, rfl, rfl⟩

/-- Counterexample for **C6** as stated: after a watch run whose single
cycle examined (and compressed) one image file, the returned stats have
`compressed_files = 1` — and the ghost cycle records show one file seen —
yet `total_files` is `0`, not the accumulated per-cycle count. -/
theorem transcode_total_files_not_accumulated :
    (watch_and_compress (fun _ => some 40) (fun _ => 10) (fun n => decide (3 ≤ n)) 1
        [⟨"a.png", 100, 5⟩] 2 (watchInit [] 0 0)).total.compressed_files = 1 ∧
    ((watch_and_compress (fun _ => some 40) (fun _ => 10) (fun n => decide (3 ≤ n)) 1
        [⟨"a.png", 100, 5⟩] 2 (watchInit [] 0 0)).cycles.map CycleRec.seen).sum = 1 ∧
    (watch_and_compress (fun _ => some 40) (fun _ => 10) (fun n => decide (3 ≤ n)) 1
        [⟨"a.png", 100, 5⟩] 2 (watchInit [] 0 0)).total.total_files = 0 := by
  decide

theorem uploadFilesLoop_acc_mem (upOk : String → Bool) (stop : Nat → Bool) :
    ∀ (files : List UpFile) (st : UploadStats) (acc : List UpFile) (c : Nat) (g : UpFile),
      g ∈ (uploadFilesLoop upOk stop files st acc c).2.1 →
      g ∈ acc ∨ upOk g.rel = true := by
  intro files
  induction files with
  | nil => intro st acc c g hg; exact Or.inl hg
  | cons f rest ih =>
    intro st acc c g hg
    by_cases hs : stop c = true
    · simp only [uploadFilesLoop, hs, if_true] at hg
      exact Or.inl hg
    · by_cases hup : upOk f.rel = true
      · simp only [uploadFilesLoop, hs, hup, if_true, if_false] at hg
        rcases ih _ _ _ _ hg with hacc | hok
        · rcases List.mem_append.mp hacc with h1 | h1
          · exact Or.inl h1
          · have : g = f := List.mem_singleton.mp h1
            exact Or.inr (this ▸ hup)
        · exact Or.inr hok
      · simp only [uploadFilesLoop, hs, hup, if_true, if_false] at hg
        exact ih _ _ _ _ hg

theorem uploadFilesLoop_count (upOk : String → Bool) (stop : Nat → Bool) :
    ∀ (files : List UpFile) (st : UploadStats) (acc : List UpFile) (c : Nat),
      (uploadFilesLoop upOk stop files st acc c).1.uploaded_files + acc.length =
        st.uploaded_files + (uploadFilesLoop upOk stop files st acc c).2.1.length := by
  intro files
  induction files with
  | nil => intro st acc c; rfl
  | cons f rest ih =>
    intro st acc c
    by_cases hs : stop c = true
    · simp [uploadFilesLoop, hs]
    · by_cases hup : upOk f.rel = true
      · simp only [uploadFilesLoop, hs, hup, Bool.false_eq_true, if_true, if_false]
        have h := ih { st with uploaded_files := st.uploaded_files + 1,
                               uploaded_bytes := st.uploaded_bytes + f.size }
          (acc ++ [f]) (c + 1)
        simp only [List.length_append, List.length_cons, List.length_nil] at h
        omega
      · simp only [uploadFilesLoop, hs, hup, Bool.false_eq_true, if_true, if_false]
        have h := ih { st with error_files := st.error_files + 1 } acc (c + 1)
        have hb : ({ st with error_files := st.error_files + 1 } : UploadStats).uploaded_files = st.uploaded_files := rfl
        rw [hb] at h
        omega

theorem uploadFilesLoop_deleted (upOk : String → Bool) (stop : Nat → Bool) :
    ∀ (files : List UpFile) (st : UploadStats) (acc : List UpFile) (c : Nat),
      (uploadFilesLoop upOk stop files st acc c).1.deleted_files = st.deleted_files := by
  intro files
  induction files with
  | nil => intro st acc c; rfl
  | cons f rest ih =>
    intro st acc c
    by_cases hs : stop c = true
    · simp [uploadFilesLoop, hs]
    · by_cases hup : upOk f.rel = true
      · simp only [uploadFilesLoop, hs, hup, if_true, if_false]
        exact ih _ _ _
      · simp only [uploadFilesLoop, hs, hup, if_true, if_false]
        exact ih _ _ _

theorem deleteLoop_deleted_le (delOk : String → Bool) (stop : Nat → Bool) :
    ∀ (dl fsfiles : List UpFile) (st : UploadStats) (c : Nat),
      (deleteLoop delOk stop dl fsfiles st c).2.1.deleted_files ≤
        st.deleted_files + dl.length := by
  intro dl
  induction dl with
  | nil => intro fsfiles st c; simp [deleteLoop]
  | cons f rest ih =>
    intro fsfiles st c
    by_cases hs : stop c = true
    · simp [deleteLoop, hs]
    · by_cases hd : delOk f.rel = true
      · simp only [deleteLoop, hs, hd, Bool.false_eq_true, if_true, if_false,
          List.length_cons]
        have h := ih (fsfiles.filter (fun g => g.rel ≠ f.rel))
          { st with deleted_files := st.deleted_files + 1 } (c + 1)
        have hb : ({ st with deleted_files := st.deleted_files + 1 } : UploadStats).deleted_files = st.deleted_files + 1 := rfl
        rw [hb] at h
        omega
      · simp only [deleteLoop, hs, hd, Bool.false_eq_true, if_true, if_false,
          List.length_cons]
        have h := ih fsfiles st (c + 1)
        omega

theorem deleteLoop_uploaded (delOk : String → Bool) (stop : Nat → Bool) :
    ∀ (dl fsfiles : List UpFile) (st : UploadStats) (c : Nat),
      (deleteLoop delOk stop dl fsfiles st c).2.1.uploaded_files = st.uploaded_files := by
  intro dl
  induction dl with
  | nil => intro fsfiles st c; rfl
  | cons f rest ih =>
    intro fsfiles st c
    by_cases hs : stop c = true
    · simp [deleteLoop, hs]
    · by_cases hd : delOk f.rel = true
      · simp only [deleteLoop, hs, hd, if_true, if_false]
        exact ih _ _ _
      · simp only [deleteLoop, hs, hd, if_true, if_false]
        exact ih _ _ _

theorem deleteLoop_pres (delOk : String → Bool) (stop : Nat → Bool) :
    ∀ (dl fsfiles : List UpFile) (st : UploadStats) (c : Nat) (f : UpFile),
      f ∈ fsfiles → (∀ g ∈ dl, g.rel ≠ f.rel) →
      f ∈ (deleteLoop delOk stop dl fsfiles st c).1 := by
  intro dl
  induction dl with
  | nil => intro fsfiles st c f hf _; exact hf
  | cons g rest ih =>
    intro fsfiles st c f hf hne
    by_cases hs : stop c = true
    · simpa [deleteLoop, hs] using hf
    · by_cases hd : delOk g.rel = true
      · simp only [deleteLoop, hs, hd, if_true, if_false]
        refine ih _ _ _ f ?_ (fun x hx => hne x (List.mem_cons_of_mem g hx))
        refine List.mem_filter.mpr ⟨hf, ?_⟩
        have hgf : ¬ f.rel = g.rel := fun h => (hne g (List.mem_cons_self g rest)) h.symm
        simp [hgf]
      · simp only [deleteLoop, hs, hd, if_true, if_false]
        exact ih _ _ _ f hf (fun x hx => hne x (List.mem_cons_of_mem g hx))

theorem deleteLoop_removed (delOk : String → Bool) (stop : Nat → Bool) :
    ∀ (dl fsfiles : List UpFile) (st : UploadStats) (c : Nat) (f : UpFile),
      f ∈ fsfiles → f ∉ (deleteLoop delOk stop dl fsfiles st c).1 →
      ∃ g ∈ dl, g.rel = f.rel := by
  intro dl
  induction dl with
  | nil => intro fsfiles st c f hf hnf; exact absurd hf hnf
  | cons g rest ih =>
    intro fsfiles st c f hf hnf
    by_cases hs : stop c = true
    · rw [deleteLoop] at hnf
      simp only [hs, if_true] at hnf
      exact absurd hf hnf
    · by_cases hd : delOk g.rel = true
      · rw [deleteLoop] at hnf
        simp only [hs, hd, if_true, if_false] at hnf
        by_cases hrel : g.rel = f.rel
        · exact ⟨g, List.mem_cons_self g rest, hrel⟩
        · have hf2 : f ∈ fsfiles.filter (fun x => x.rel ≠ g.rel) := by
            refine List.mem_filter.mpr ⟨hf, ?_⟩
            have hfg : ¬ f.rel = g.rel := fun h => hrel h.symm
            simp [hfg]
          obtain ⟨x, hx, hxr⟩ := ih _ _ _ f hf2 hnf
          exact ⟨x, List.mem_cons_of_mem g hx, hxr⟩
      · rw [deleteLoop] at hnf
        simp only [hs, hd, if_true, if_false] at hnf
        obtain ⟨x, hx, hxr⟩ := ih _ _ _ f hf hnf
        exact ⟨x, List.mem_cons_of_mem g hx, hxr⟩

/-- **C8.**  In an `upload_folder` run with `delete_after_upload` set, a
local file whose upload failed is never deleted (it is still in the tree
afterwards), only files that uploaded successfully in that run are deleted,
and the returned `deleted_files` count is at most `uploaded_files`. -/
theorem upload_never_deletes_errored
    (upOk delOk : String → Bool) (stop : Nat → Bool) (t : LocalTree) (c : Nat)
    (f : UpFile) (hmem : f ∈ t.files) (hfail : upOk f.rel = false) :
    f ∈ (upload_folder upOk delOk stop t true c).2.1.files ∧
    (∀ g ∈ t.files, g ∉ (upload_folder upOk delOk stop t true c).2.1.files →
      upOk g.rel = true) ∧
    (upload_folder upOk delOk stop t true c).1.deleted_files ≤
      (upload_folder upOk delOk stop t true c).1.uploaded_files := by
  have hup_ne : ∀ g ∈ (uploadFilesLoop upOk stop t.files UploadStats.zero [] (c + 1)).2.1,
      g.rel ≠ f.rel := by
    intro g hg hrel
    rcases uploadFilesLoop_acc_mem upOk stop t.files UploadStats.zero [] (c + 1) g hg with
      h0 | h0
    · cases h0
    · rw [hrel, hfail] at h0; cases h0
  unfold upload_folder
  by_cases hs : stop c = true
  · simp only [hs, if_true]
    exact ⟨hmem, fun g hg hng => absurd hg hng, Nat.le_refl _⟩
  · simp only [hs, Bool.false_eq_true, if_false]
    by_cases hemp : t.files.isEmpty = true
    · simp only [hemp, if_true]
      exact ⟨hmem, fun g hg hng => absurd hg hng, Nat.le_refl _⟩
    · simp only [hemp, Bool.false_eq_true, if_false]
      by_cases hdel :
          (true && !(uploadFilesLoop upOk stop t.files UploadStats.zero [] (c + 1)).2.1.isEmpty)
            = true
      · simp only [hdel, if_true]
        have hcount := uploadFilesLoop_count upOk stop t.files UploadStats.zero [] (c + 1)
        have hdel0 := uploadFilesLoop_deleted upOk stop t.files UploadStats.zero [] (c + 1)
        refine ⟨?_, ?_, ?_⟩
        · exact deleteLoop_pres delOk stop _ _ _ _ f hmem hup_ne
        · intro g hg hng
          obtain ⟨x, hx, hxr⟩ := deleteLoop_removed delOk stop
            (uploadFilesLoop upOk stop t.files UploadStats.zero [] (c + 1)).2.1 t.files
            (uploadFilesLoop upOk stop t.files UploadStats.zero [] (c + 1)).1
            (uploadFilesLoop upOk stop t.files UploadStats.zero [] (c + 1)).2.2 g hg hng
          rcases uploadFilesLoop_acc_mem upOk stop t.files UploadStats.zero [] (c + 1) x hx
            with h0 | h0
          · cases h0
          · rw [← hxr]; exact h0
        · have h1 := deleteLoop_deleted_le delOk stop
            (uploadFilesLoop upOk stop t.files UploadStats.zero [] (c + 1)).2.1 t.files
            (uploadFilesLoop upOk stop t.files UploadStats.zero [] (c + 1)).1
            (uploadFilesLoop upOk stop t.files UploadStats.zero [] (c + 1)).2.2
          have h2 := deleteLoop_uploaded delOk stop
            (uploadFilesLoop upOk stop t.files UploadStats.zero [] (c + 1)).2.1 t.files
            (uploadFilesLoop upOk stop t.files UploadStats.zero [] (c + 1)).1
            (uploadFilesLoop upOk stop t.files UploadStats.zero [] (c + 1)).2.2
          simp only [List.length_nil] at hcount
          have hz1 : UploadStats.zero.uploaded_files = 0 := rfl
          have hz2 : UploadStats.zero.deleted_files = 0 := rfl
          rw [hz1] at hcount
          rw [hz2] at hdel0
          omega
      · simp only [hdel, Bool.false_eq_true, if_false]
        have hdel0 := uploadFilesLoop_deleted upOk stop t.files UploadStats.zero [] (c + 1)
        have hz2 : UploadStats.zero.deleted_files = 0 := rfl
        rw [hz2] at hdel0
        exact ⟨hmem, fun g hg hng => absurd hg hng, by omega⟩

/-- Witness for **C8** at a concrete input: `ok.jpg` uploads and is deleted,
`bad.jpg` errors and survives; `deleted_files = 1 ≤ 1 = uploaded_files`. -/
theorem upload_never_deletes_errored_witness :
    (⟨"bad.jpg", 20⟩ : UpFile) ∈
      (upload_folder (fun r => r == "ok.jpg") (fun _ => true) (fun _ => false)
        ⟨[⟨"ok.jpg", 10⟩, ⟨"bad.jpg", 20⟩], []⟩ true 0).2.1.files ∧
    (upload_folder (fun r => r == "ok.jpg") (fun _ => true) (fun _ => false)
        ⟨[⟨"ok.jpg", 10⟩, ⟨"bad.jpg", 20⟩], []⟩ true 0).1.deleted_files ≤
      (upload_folder (fun r => r == "ok.jpg") (fun _ => true) (fun _ => false)
        ⟨[⟨"ok.jpg", 10⟩, ⟨"bad.jpg", 20⟩], []⟩ true 0).1.uploaded_files := by
  have h := upload_never_deletes_errored (fun r => r == "ok.jpg") (fun _ => true)
    (fun _ => false) ⟨[⟨"ok.jpg", 10⟩, ⟨"bad.jpg", 20⟩], []⟩ 0 ⟨"bad.jpg", 20⟩
    (by decide) (by decide)
  exact ⟨h.1, h.2.2⟩

theorem upload_folder_no_delete (upOk delOk : String → Bool) (stop : Nat → Bool)
    (t : LocalTree) (c : Nat) :
    (upload_folder upOk delOk stop t false c).2.1 = t := by
  unfold upload_folder
  by_cases hs : stop c = true
  · simp [hs]
  · by_cases hemp : t.files.isEmpty = true <;> simp [hs, hemp]

theorem watch_and_upload_no_delete (upOk delOk : String → Bool) (stop : Nat → Bool)
    (ticks : Nat) :
    ∀ (n : Nat) (t : LocalTree) (tot : UploadStats) (c : Nat),
      (watch_and_upload upOk delOk stop ticks false n t tot c).1 = t := by
  intro n
  induction n with
  | zero => intro t tot c; rfl
  | succ n ih =>
    intro t tot c
    rw [watch_and_upload]
    by_cases hs : stop c = true
    · simp [hs]
    · by_cases hemp : t.files.isEmpty = true
      · simp only [hs, hemp, Bool.false_eq_true, if_false, if_true]
        exact ih _ _ _
      · simp only [hs, hemp, Bool.false_eq_true, if_false]
        rw [ih]
        exact upload_folder_no_delete upOk delOk stop t (c + 1)

/-- **C10.**  Every upload run started through `/upload/run` — one-shot and
continuous alike — invokes the upload stage with `delete_after_upload =
False`, so a publish run triggered through the API leaves the local tree
(files and directories) exactly as it was. -/
theorem api_upload_never_deletes (cfg : UploadConfig) (upOk delOk : String → Bool)
    (stop : Nat → Bool) (ticks n : Nat) (t : LocalTree) :
    (runUploadThread cfg upOk delOk stop ticks n t).1 = t := by
  unfold runUploadThread
  by_cases h1 : cfg.settingsPresent = true
  · by_cases h2 : cfg.compress_output_dir = ""
    · simp [h1, h2]
    · by_cases h3 : cfg.remote_output_dir = ""
      · simp [h1, h2, h3]
      · by_cases h4 : cfg.upload_interval_seconds = 0
        · simp [h1, h2, h3, h4, upload_folder_no_delete]
        · simp [h1, h2, h3, h4, watch_and_upload_no_delete]
  · simp [h1]

/-- **C5.**  At most one execution of a stage is live at a time: a trigger
while the `running` flag is true is rejected immediately as a conflict with
the state unchanged (never queued), and as soon as a run's `finally` block
has cleared `running` (and released the lock) a new trigger is accepted and
starts a run. -/
theorem stage_single_instance (s t : StageState) (h : s.running = true) :
    triggerRun s = (TriggerResult.conflict, s) ∧
    (triggerRun (finishRun t)).1 = TriggerResult.started ∧
    (triggerRun (finishRun t)).2.running = true := by
  unfold triggerRun finishRun
  simp [h]

/-- Witness for **C5** at concrete states. -/
theorem stage_single_instance_witness :
    triggerRun ⟨true, false, true⟩ = (TriggerResult.conflict, ⟨true, false, true⟩) ∧
    (triggerRun (finishRun ⟨true, true, true⟩)).1 = TriggerResult.started ∧
    (triggerRun (finishRun ⟨true, true, true⟩)).2.running = true :=
  stage_single_instance ⟨true, false, true⟩ ⟨true, true, true⟩ rfl

/-- Counterexample for **C7** as stated: triggering `/compress/run` with a
missing `compress_output_dir` still returns the "started" response — the
same response a valid configuration gets — while the ValidationError
surfaces only as a log entry and no work starts. -/
theorem compress_validation_not_synchronous :
    (run_compress ⟨true, "/data", ""⟩ ⟨false, false, false⟩).1 = RunResponse.started ∧
    (run_compress ⟨true, "/data", ""⟩ ⟨false, false, false⟩).1 =
      (run_compress ⟨true, "/data", "/out"⟩ ⟨false, false, false⟩).1 ∧
    (LogLevel.error, "画像圧縮エラー: 画像圧縮出力先フォルダーが未設定です") ∈
      (run_compress ⟨true, "/data", ""⟩ ⟨false, false, false⟩).2.1 ∧
    (run_compress ⟨true, "/data", ""⟩ ⟨false, false, false⟩).2.2.2 = false := by
  decide

/-- **C7** (amended).  A stage run triggered with a missing required
directory configuration is *not* reported synchronously to the trigger
caller: the endpoint answers "started" exactly as for a valid
configuration; the ValidationError surfaces only through the log sink, and
the run exits cleanly without starting work (state unchanged).  Only a lock
conflict (`running == true`) is reported synchronously, as HTTP 409. -/
theorem compress_validation_logged_only (cfg : CompressConfig) (s : StageState)
    (hrun : s.running = false) (hset : cfg.settingsPresent = true)
    (hld : cfg.local_dir ≠ "") (hout : cfg.compress_output_dir = "") :
    (run_compress cfg s).1 = RunResponse.started ∧
    (LogLevel.error, "画像圧縮エラー: 画像圧縮出力先フォルダーが未設定です") ∈
      (run_compress cfg s).2.1 ∧
    (run_compress cfg s).2.2.1 = s ∧
    (run_compress cfg s).2.2.2 = false := by
  unfold run_compress runCompressPrologue
  simp [hrun, hset, hld, hout]

/-- Witness for **C7** (amended) at a concrete configuration. -/
theorem compress_validation_logged_only_witness :
    (run_compress ⟨true, "/d", ""⟩ ⟨false, true, false⟩).1 = RunResponse.started ∧
    (LogLevel.error, "画像圧縮エラー: 画像圧縮出力先フォルダーが未設定です") ∈
      (run_compress ⟨true, "/d", ""⟩ ⟨false, true, false⟩).2.1 ∧
    (run_compress ⟨true, "/d", ""⟩ ⟨false, true, false⟩).2.2.1 = ⟨false, true, false⟩ ∧
    (run_compress ⟨true, "/d", ""⟩ ⟨false, true, false⟩).2.2.2 = false :=
  compress_validation_logged_only ⟨true, "/d", ""⟩ ⟨false, true, false⟩ rfl rfl
    (by decide) rfl

end ImgResize
